import Mathlib

/-!
Verification of the blockchain repository (proof-of-work miner and
ScroogeCoin ledger).  The Python sources are shallowly embedded: pure
functions become Lean functions over `Nat`/`Int`, the stateful classes
become explicit state passing, fallible code (uncaught Python exceptions)
returns `Option`, and unbounded loops take explicit fuel.  External
cryptographic collaborators (the `fastecdsa` sign/verify primitives,
which the repository consumes but does not implement) are parameters.
-/

set_option maxRecDepth 4000

/-! ## JSON values and Python `json.dumps`

Both source files hash the SHA-256 digest of `json.dumps(value, sort_keys=True)`
(the ledger additionally passes `indent=4`).  `Json` models the Python values
that actually get dumped: ints, strings, lists/tuples and dicts. -/

inductive Json where
  | num (n : Int)
  | str (s : String)
  | arr (xs : List Json)
  | obj (members : List (String × Json))
deriving Repr

namespace PyJson

/-- Python compares strings by code points, lexicographically. -/
def charListLt : List Char → List Char → Bool
  | _, [] => false
  | [], _ :: _ => true
  | a :: as, b :: bs =>
      if a.toNat < b.toNat then true
      else if b.toNat < a.toNat then false
      else charListLt as bs

def strLtPy (a b : String) : Bool := charListLt a.data b.data

/-- Stable insertion into a key-sorted member list (models `sort_keys=True`). -/
def insertMember (m : String × Json) : List (String × Json) → List (String × Json)
  | [] => [m]
  | x :: xs => if strLtPy x.1 m.1 then x :: insertMember m xs else m :: x :: xs

def sortMembers : List (String × Json) → List (String × Json)
  | [] => []
  | x :: xs => insertMember x (sortMembers xs)

def hexCharOf (n : Nat) : Char :=
  Char.ofNat (if n < 10 then 48 + n else 87 + n)

mutual

/-- Executable structural size of a `Json` value, used as recursion fuel. -/
def jsize : Json → Nat
  | .num _ => 1
  | .str _ => 1
  | .arr xs => 1 + jsizeList xs
  | .obj ms => 1 + jsizeMembers ms

def jsizeList : List Json → Nat
  | [] => 0
  | x :: xs => 1 + jsize x + jsizeList xs

def jsizeMembers : List (String × Json) → Nat
  | [] => 0
  | m :: ms => 1 + jsize m.2 + jsizeMembers ms

end

/-- Four lowercase hex digits, as in Python's \u escapes. -/
def hex4 (n : Nat) : String :=
  String.mk [ hexCharOf ((n >>> 12) % 16), hexCharOf ((n >>> 8) % 16),
              hexCharOf ((n >>> 4) % 16), hexCharOf (n % 16)]

/-- `json.dumps` escaping with the default `ensure_ascii=True`. -/
def escapeChar (c : Char) : String :=
  if c = '"' then "\\\""
  else if c = '\\' then "\\\\"
  else if c = '\n' then "\\n"
  else if c = '\t' then "\\t"
  else if c = '\r' then "\\r"
  else if c.toNat = 8 then "\\b"
  else if c.toNat = 12 then "\\f"
  else if c.toNat < 32 ∨ 126 < c.toNat then
    if c.toNat < 65536 then "\\u" ++ hex4 c.toNat
    else
      let v := c.toNat - 65536
      "\\u" ++ hex4 (55296 + (v >>> 10)) ++ "\\u" ++ hex4 (56320 + (v % 1024))
  else String.mk [c]

def quoteJson (s : String) : String :=
  (s.data.foldl (fun acc c => acc ++ escapeChar c) "\"") ++ "\""

/-- `json.dumps(v, sort_keys=True)` with the default separators. -/
def dumpsCF : Nat → Json → String
  | _, .num n => toString n
  | _, .str s => quoteJson s
  | 0, .arr _ => ""
  | 0, .obj _ => ""
  | fuel + 1, .arr xs =>
      "[" ++ String.intercalate ", " (xs.map (dumpsCF fuel)) ++ "]"
  | fuel + 1, .obj ms =>
      "\x7b" ++ String.intercalate ", "
        ((sortMembers ms).map (fun m => quoteJson m.1 ++ ": " ++ dumpsCF fuel m.2)) ++ "\x7d"

def dumpsC (j : Json) : String := dumpsCF (PyJson.jsize j) j

def indentOf (level : Nat) : String := String.mk (List.replicate (4 * level) ' ')

/-- `json.dumps(v, sort_keys=True, indent=4)`. -/
def dumps4F : Nat → Nat → Json → String
  | _, _, .num n => toString n
  | _, _, .str s => quoteJson s
  | 0, _, .arr _ => ""
  | 0, _, .obj _ => ""
  | _ + 1, _, .arr [] => "[]"
  | _ + 1, _, .obj [] => "\x7b\x7d"
  | fuel + 1, level, .arr xs =>
      "[\n" ++ String.intercalate ",\n"
          (xs.map (fun x => indentOf (level + 1) ++ dumps4F fuel (level + 1) x)) ++
        "\n" ++ indentOf level ++ "]"
  | fuel + 1, level, .obj ms =>
      "\x7b\n" ++ String.intercalate ",\n"
          ((sortMembers ms).map (fun m =>
            indentOf (level + 1) ++ quoteJson m.1 ++ ": " ++ dumps4F fuel (level + 1) m.2)) ++
        "\n" ++ indentOf level ++ "\x7d"

def dumps4 (j : Json) : String := dumps4F (PyJson.jsize j) 0 j

/-- `str.encode("utf-8")` as a list of byte values. -/
def utf8Bytes (s : String) : List Nat :=
  (s.data.map (fun c =>
    let n := c.toNat
    if n < 128 then [n]
    else if n < 2048 then [192 ||| (n >>> 6), 128 ||| (n &&& 63)]
    else if n < 65536 then
      [224 ||| (n >>> 12), 128 ||| ((n >>> 6) &&& 63), 128 ||| (n &&& 63)]
    else
      [240 ||| (n >>> 18), 128 ||| ((n >>> 12) &&& 63),
       128 ||| ((n >>> 6) &&& 63), 128 ||| (n &&& 63)])).flatten

end PyJson

/-! ## SHA-256 (`hashlib.sha256(...).hexdigest()`)

A direct executable model of SHA-256 over byte lists, with 32-bit words as
`Nat` reduced mod `2^32`. -/

namespace SHA256

def M32 : Nat := 4294967296

def add32 (a b : Nat) : Nat := (a + b) % M32

def rotr (n x : Nat) : Nat := ((x >>> n) ||| (x <<< (32 - n))) % M32

def bnot32 (x : Nat) : Nat := x ^^^ 4294967295

def smallSigma0 (x : Nat) : Nat := (rotr 7 x) ^^^ (rotr 18 x) ^^^ (x >>> 3)
def smallSigma1 (x : Nat) : Nat := (rotr 17 x) ^^^ (rotr 19 x) ^^^ (x >>> 10)
def bigSigma0 (x : Nat) : Nat := (rotr 2 x) ^^^ (rotr 13 x) ^^^ (rotr 22 x)
def bigSigma1 (x : Nat) : Nat := (rotr 6 x) ^^^ (rotr 11 x) ^^^ (rotr 25 x)

def kconst : List Nat :=
  [0x428A2F98, 0x71374491, 0xB5C0FBCF, 0xE9B5DBA5, 0x3956C25B, 0x59F111F1, 0x923F82A4, 0xAB1C5ED5,
   0xD807AA98, 0x12835B01, 0x243185BE, 0x550C7DC3, 0x72BE5D74, 0x80DEB1FE, 0x9BDC06A7, 0xC19BF174,
   0xE49B69C1, 0xEFBE4786, 0x0FC19DC6, 0x240CA1CC, 0x2DE92C6F, 0x4A7484AA, 0x5CB0A9DC, 0x76F988DA,
   0x983E5152, 0xA831C66D, 0xB00327C8, 0xBF597FC7, 0xC6E00BF3, 0xD5A79147, 0x06CA6351, 0x14292967,
   0x27B70A85, 0x2E1B2138, 0x4D2C6DFC, 0x53380D13, 0x650A7354, 0x766A0ABB, 0x81C2C92E, 0x92722C85,
   0xA2BFE8A1, 0xA81A664B, 0xC24B8B70, 0xC76C51A3, 0xD192E819, 0xD6990624, 0xF40E3585, 0x106AA070,
   0x19A4C116, 0x1E376C08, 0x2748774C, 0x34B0BCB5, 0x391C0CB3, 0x4ED8AA4A, 0x5B9CCA4F, 0x682E6FF3,
   0x748F82EE, 0x78A5636F, 0x84C87814, 0x8CC70208, 0x90BEFFFA, 0xA4506CEB, 0xBEF9A3F7, 0xC67178F2]

def hinit : List Nat :=
  [0x6A09E667, 0xBB67AE85, 0x3C6EF372, 0xA54FF53A, 0x510E527F, 0x9B05688C, 0x1F83D9AB, 0x5BE0CD19]

/-- Standard SHA-256 padding: 0x80, zeros to 56 mod 64, 64-bit big-endian bit length. -/
def pad (msg : List Nat) : List Nat :=
  let len := msg.length
  let bitLen := 8 * len
  let padZeros := (55 + 64 - len % 64) % 64
  msg ++ [0x80] ++ List.replicate padZeros 0 ++
    [(bitLen >>> 56) % 256, (bitLen >>> 48) % 256, (bitLen >>> 40) % 256, (bitLen >>> 32) % 256,
     (bitLen >>> 24) % 256, (bitLen >>> 16) % 256, (bitLen >>> 8) % 256, bitLen % 256]

def toWords : List Nat → List Nat
  | b0 :: b1 :: b2 :: b3 :: rest =>
      ((b0 <<< 24) ||| (b1 <<< 16) ||| (b2 <<< 8) ||| b3) :: toWords rest
  | _ => []

def chunksAux : Nat → List Nat → List (List Nat)
  | 0, _ => []
  | n + 1, ws => if ws.isEmpty then [] else ws.take 16 :: chunksAux n (ws.drop 16)

def chunksOf16 (ws : List Nat) : List (List Nat) := chunksAux ws.length ws

/-- Message-schedule extension from 16 to 64 words. -/
def buildW (w16 : List Nat) : List Nat :=
  (List.range 48).foldl
    (fun w _ =>
      let len := w.length
      w ++ [add32 (add32 (smallSigma1 (w.getD (len - 2) 0)) (w.getD (len - 7) 0))
                  (add32 (smallSigma0 (w.getD (len - 15) 0)) (w.getD (len - 16) 0))])
    w16

def compress (hs : List Nat) (chunk : List Nat) : List Nat :=
  let w := buildW chunk
  let final := (List.range 64).foldl
    (fun st i =>
      match st with
      | [a, b, c, d, e, f, g, h] =>
          let ch := (e &&& f) ^^^ ((bnot32 e) &&& g)
          let maj := (a &&& b) ^^^ (a &&& c) ^^^ (b &&& c)
          let t1 := add32 h (add32 (bigSigma1 e) (add32 ch (add32 (kconst.getD i 0) (w.getD i 0))))
          let t2 := add32 (bigSigma0 a) maj
          [add32 t1 t2, a, b, c, add32 d t1, e, f, g]
      | other => other)
    hs
  List.zipWith add32 hs final

def toHexWord (x : Nat) : String :=
  String.mk ((List.range 8).map (fun i => PyJson.hexCharOf ((x >>> (4 * (7 - i))) % 16)))

/-- `hashlib.sha256(bytes).hexdigest()`. -/
def sha256hex (msg : List Nat) : String :=
  let hs := (chunksOf16 (toWords (pad msg))).foldl compress hinit
  String.join (hs.map toHexWord)

/-- `int(hexString, 16)` for the hex digests produced above. -/
def hexVal (c : Char) : Nat :=
  if 48 ≤ c.toNat ∧ c.toNat ≤ 57 then c.toNat - 48
  else if 97 ≤ c.toNat ∧ c.toNat ≤ 102 then c.toNat - 87
  else if 65 ≤ c.toNat ∧ c.toNat ≤ 70 then c.toNat - 55
  else 0

def intOfHex (s : String) : Nat := s.data.foldl (fun a c => a * 16 + hexVal c) 0

end SHA256

/-! ## Python float true division

`change_target` computes `int(prev_target * time_span / target_time)`: the
`/` is Python's float true division.  CPython's `int.__truediv__` returns
the correctly rounded IEEE-754 double (round to nearest, ties to even), so
we model the resulting double exactly as a dyadic value `m * 2^e`.
`none` models the uncaught `ZeroDivisionError` and `OverflowError`. -/

/-- Digit counter: `digitsF b fuel n` is the number of base-`b` digits of
`n` (0 for `n = 0`), provided `n ≤ fuel`.  Structural recursion on the
fuel keeps it kernel-reducible. -/
def digitsF (b : Nat) : Nat → Nat → Nat
  | _, 0 => 0
  | 0, _ + 1 => 0
  | f + 1, n + 1 => digitsF b f ((n + 1) / b) + 1

namespace PyFloat

/-- `n.bit_length()`. -/
def bitlen (n : Nat) : Nat := digitsF 2 n n

/-- `floor (p * 2^k / q)` together with a sticky bit recording whether that
division was inexact. -/
def divScaled (p q : Nat) (k : Int) : Nat × Bool :=
  if 0 ≤ k then
    ((p <<< k.toNat) / q, (p <<< k.toNat) % q != 0)
  else
    (p / (q <<< (-k).toNat), p % (q <<< (-k).toNat) != 0)

/-- Round the exact rational `p / q` (`p, q > 0`) to 53 significant bits,
round-to-nearest ties-to-even: returns `(m, e)` with value `m * 2^e` and
`2^52 ≤ m < 2^53`. -/
def roundRatio (p q : Nat) : Nat × Int :=
  let d : Int := (bitlen p : Int) - (bitlen q : Int)
  let k : Int := 55 - d
  let te := divScaled p q k
  let t := te.1
  let g := bitlen t - 53
  let m0 := t >>> g
  let rem := t &&& ((1 <<< g) - 1)
  let half := 1 <<< (g - 1)
  let roundUp :=
    if half < rem then true
    else if rem < half then false
    else te.2 || (m0 % 2 == 1)
  let m1 := if roundUp then m0 + 1 else m0
  let e : Int := (g : Int) - k
  if m1 = 1 <<< 53 then (1 <<< 52, e + 1) else (m1, e)

/-- Float true division of nonnegative integers as an exact dyadic value;
`none` on division by zero or overflow past the largest double. -/
def trueDivPos (p q : Nat) : Option (Nat × Int) :=
  if q = 0 then none
  else if p = 0 then some (0, 0)
  else
    let me := roundRatio p q
    if (972 : Int) ≤ me.2 then none else some me

/-- `int(x)` of a nonnegative dyadic float value `m * 2^e` (truncation). -/
def truncDyadic (m : Nat) (e : Int) : Nat :=
  if 0 ≤ e then m <<< e.toNat else m >>> (-e).toNat

/-- `int(a / b)` for Python ints `a`, `b`. -/
def intTrueDiv (a b : Int) : Option Int :=
  (trueDivPos a.natAbs b.natAbs).map (fun me =>
    let v : Int := truncDyadic me.1 me.2
    if (0 ≤ a ∧ 0 ≤ b) ∨ (a < 0 ∧ b < 0) then v else -v)

end PyFloat

/-! ## Python `datetime` fragment used by `proof_of_work.py`

`read_str_time` parses `"%Y-%m-%d %H:%M:%S.%f"`; `datetime_to_seconds`
returns `int(time.timestamp())` for a `datetime`.  A naive `timestamp()`
is interpreted in the process's local timezone; we model it at UTC.  All
uses in the source subtract two timestamps taken from the same clock, and
a fixed whole-second UTC offset cancels in those differences. -/

namespace ProofOfWork

structure PyDateTime where
  year : Int
  month : Int
  day : Int
  hour : Int
  minute : Int
  second : Int
  microsecond : Int
deriving Repr, DecidableEq

def isLeap (y : Int) : Bool := (y % 4 == 0 && y % 100 != 0) || (y % 400 == 0)

def daysInMonth (y m : Int) : Int :=
  if m = 2 then (if isLeap y then 29 else 28)
  else if m = 4 ∨ m = 6 ∨ m = 9 ∨ m = 11 then 30
  else 31

/-- Days between a civil date and 1970-01-01 (proleptic Gregorian); all
intermediate divisions act on nonnegative values for the valid years
`1 ≤ y ≤ 9999`. -/
def daysFromCivil (y m d : Int) : Int :=
  let y' := if m ≤ 2 then y - 1 else y
  let era := y' / 400
  let yoe := y' - era * 400
  let mp := if 2 < m then m - 3 else m + 9
  let doy := (153 * mp + 2) / 5 + d - 1
  let doe := yoe * 365 + yoe / 4 - yoe / 100 + doy
  era * 146097 + doe - 719468

def parseNatDigits (s : String) : Option Nat :=
  if s.isEmpty then none
  else if s.data.all (fun c => 48 ≤ c.toNat ∧ c.toNat ≤ 57) then
    some (s.data.foldl (fun a c => a * 10 + (c.toNat - 48)) 0)
  else none

/-- Split a character list at every occurrence of `sep` (Python
`str.split(sep)` for a one-character separator). -/
def splitChars (sep : Char) : List Char → List Char → List String
  | [], acc => [String.mk acc.reverse]
  | c :: cs, acc =>
      if c = sep then String.mk acc.reverse :: splitChars sep cs []
      else splitChars sep cs (c :: acc)

def splitOnChar (sep : Char) (s : String) : List String := splitChars sep s.data []

/-- `datetime.datetime.strptime(time, "%Y-%m-%d %H:%M:%S.%f")`; `none`
models the `ValueError` raised on a malformed string. -/
def read_str_time (time : String) : Option PyDateTime :=
  match splitOnChar ' ' time with
  | [date, clock] =>
    match splitOnChar '-' date with
    | [ys, mos, ds] =>
      match splitOnChar ':' clock with
      | [hs, mins, secfrac] =>
        match splitOnChar '.' secfrac with
        | [ss, fs] => do
            let y ← parseNatDigits ys
            let mo ← parseNatDigits mos
            let d ← parseNatDigits ds
            let h ← parseNatDigits hs
            let mi ← parseNatDigits mins
            let s ← parseNatDigits ss
            let f ← parseNatDigits fs
            if 1 ≤ y ∧ y ≤ 9999 ∧ 1 ≤ mo ∧ mo ≤ 12 ∧
               1 ≤ (d : Int) ∧ (d : Int) ≤ daysInMonth y mo ∧
               h ≤ 23 ∧ mi ≤ 59 ∧ s ≤ 59 ∧ fs.length ≤ 6 then
              some ⟨y, mo, d, h, mi, s, f * 10 ^ (6 - fs.length)⟩
            else none
        | _ => none
      | _ => none
    | _ => none
  | _ => none

/-- `int(time.timestamp())` for a parsed datetime (UTC interpretation;
truncation toward zero, so a pre-epoch fractional second rounds up). -/
def datetime_to_seconds (dt : PyDateTime) : Int :=
  let w := daysFromCivil dt.year dt.month dt.day * 86400 +
    dt.hour * 3600 + dt.minute * 60 + dt.second
  if 0 ≤ w ∨ dt.microsecond = 0 then w else w + 1

/-! ### Compact-target codec and retargeting -/

/-- `get_target_from_bits(bits)`.  For an exponent below 3 the Python code
would compute a float power; the spec declares the codec undefined there,
and `Nat` subtraction clamps the exponent instead. -/
def get_target_from_bits (bits : Nat) : Nat :=
  let part_1 := (bits &&& 0xFF000000) >>> 24
  let part_2 := bits &&& 0x00FFFFFF
  part_2 * 2 ^ (8 * (part_1 - 3))

/-- Number of hex digits of `n`, i.e. `len(hex(n)[2:])`. -/
def hexDigits (n : Nat) : Nat := if n = 0 then 1 else digitsF 16 n n

/-- `get_bits_from_target(target)`.  A target below `2^16` would make the
Python shift count negative (a `ValueError`); the spec declares the codec
undefined there, and `Nat` subtraction clamps the shift instead. -/
def get_bits_from_target (target : Nat) : Nat :=
  let bitlength0 := hexDigits target * 4
  let bitlength := if bitlength0 % 8 ≠ 0 then bitlength0 + (8 - bitlength0 % 8) else bitlength0
  let part_1 := bitlength / 8
  let part_2 := target >>> (8 * (part_1 - 3))
  (part_1 <<< 24) ||| part_2

/-- `change_target(prev_bits, start_time, end_time, target_time)`.  `none`
models the uncaught exceptions: `ValueError` from `strptime` and
`ZeroDivisionError`/`OverflowError` from the float division. -/
def change_target (prev_bits : Nat) (start_time end_time : String)
    (target_time : Int) : Option Int := do
  let prev_target := get_target_from_bits prev_bits
  let de ← read_str_time end_time
  let ds ← read_str_time start_time
  let time_span : Int := datetime_to_seconds de - datetime_to_seconds ds
  PyFloat.intTrueDiv ((prev_target : Int) * time_span) target_time

/-! ### The miner -/

/-- An unsealed block (the dict built by `genesis_block`/`make_empty_block`;
it has no `hash` key until `mine` adds one).  `previous_hash` is a `Json`
value because the genesis block stores the int `0` where later blocks store
a hash string. -/
structure PowBlock where
  previous_hash : Json
  index : Nat
  transactions : List Json
  bits : Nat
  nonce : Int
  time : String
deriving Repr

/-- A sealed block: the mined block together with its stored `hash`. -/
structure SealedBlock where
  block : PowBlock
  hash : String
deriving Repr

def powBlockJson (b : PowBlock) : Json :=
  Json.obj [("previous_hash", b.previous_hash), ("index", Json.num b.index),
            ("transactions", Json.arr b.transactions), ("bits", Json.num b.bits),
            ("nonce", Json.num b.nonce), ("time", Json.str b.time)]

/-- `Miner.calculate_hash`: SHA-256 of the sorted-keys JSON dump. -/
def calculate_hash (block : PowBlock) : String :=
  SHA256.sha256hex (PyJson.utf8Bytes (PyJson.dumpsC (powBlockJson block)))

/-- `Miner.genesis_block` (the literal `00000000000000` is the int 0; the
wall-clock string is a parameter). -/
def genesis_block (chain : List SealedBlock) (now : String) : PowBlock :=
  { previous_hash := Json.num 0, index := chain.length, transactions := [],
    bits := 0x1EFFFFFF, nonce := 0, time := now }

/-- `Miner.make_empty_block`; `none` models the `IndexError` on an empty
chain. -/
def make_empty_block (chain : List SealedBlock) (bits : Nat) (now : String) :
    Option PowBlock :=
  (chain.getLast?).map (fun prev =>
    { previous_hash := Json.str prev.hash, index := chain.length,
      transactions := [], bits := bits, nonce := 0, time := now })

/-- The `while` search of `Miner.mine`, with explicit fuel standing for the
unbounded iteration: hash the block; while the hash value is not below the
target, bump `nonce` and rehash. -/
def mineLoop (target : Nat) : Nat → PowBlock → Option SealedBlock
  | 0, block =>
    let hash_of_block := calculate_hash block
    if SHA256.intOfHex hash_of_block ≥ target then none
    else some ⟨block, hash_of_block⟩
  | fuel + 1, block =>
    let hash_of_block := calculate_hash block
    if SHA256.intOfHex hash_of_block ≥ target then
      mineLoop target fuel { block with nonce := block.nonce + 1 }
    else some ⟨block, hash_of_block⟩

/-- `Miner.mine`: search for a qualifying nonce, store the hash, append the
sealed block to the chain and return it. -/
def mine (fuel : Nat) (chain : List SealedBlock) (block : PowBlock) :
    Option (SealedBlock × List SealedBlock) :=
  let bits := block.bits
  let target := get_target_from_bits bits
  (mineLoop target fuel block).map (fun sb => (sb, chain ++ [sb]))

/-- Chains produced by the miner: blocks enter the chain only through
`mine`. -/
inductive MinerReachable : List SealedBlock → Prop where
  | nil : MinerReachable []
  | step {chain block sb chain'} (fuel : Nat) :
      MinerReachable chain → mine fuel chain block = some (sb, chain') →
      MinerReachable chain'

end ProofOfWork

/-! ## Python container access helpers -/

namespace Py

/-- Python list indexing `xs[i]` with negative indices; `none` models the
`IndexError` raised out of range. -/
def pyIndex {α : Type} (xs : List α) (i : Int) : Option α :=
  if 0 ≤ i then xs.get? i.toNat
  else
    let j : Int := (xs.length : Int) + i
    if 0 ≤ j then xs.get? j.toNat else none

/-- Python slicing `xs[s:]` (negative start clamps to the head). -/
def pySliceFrom {α : Type} (xs : List α) (s : Int) : List α :=
  if 0 ≤ s then xs.drop s.toNat
  else
    let j : Int := (xs.length : Int) + s
    if 0 ≤ j then xs.drop j.toNat else xs

/-- Python dict lookup `d[k]`; `none` models the `KeyError`. -/
def dictGet {β : Type} (kvs : List (String × β)) (k : String) : Option β :=
  (kvs.find? (fun p => p.1 == k)).map (fun p => p.2)

end Py

/-! ## The ScroogeCoin ledger (`scrooge_coin.py`)

Python dicts become structures (for blocks, transactions and locations)
or association lists with distinct keys (for `receivers`).  The
`fastecdsa` collaborator is a `Crypto` parameter: `sign` closes over the
signer's private key and `verify` checks a signature of a hash against a
public key. -/

namespace ScroogeCoin

/-- `{"block": ..., "tx": ..., "amount": ...}`. -/
structure Location where
  block : Int
  tx : Int
  amount : Int
deriving Repr, DecidableEq

/-- A transaction dict (after `create_coins`/`send_tx` added hash and
signature). -/
structure Tx where
  sender : String
  locations : Location
  receivers : List (String × Int)
  hash : String
  signature : Int × Int
deriving Repr, DecidableEq

/-- A mined block dict. -/
structure Block where
  previous_hash : String
  index : Int
  transactions : List Tx
  hash : String
  signature : Int × Int
deriving Repr, DecidableEq

/-- The external elliptic-curve collaborator (consumed, not implemented,
by the repository). -/
structure Crypto (PubKey : Type) where
  sign : String → Int × Int
  verify : Int × Int → String → PubKey → Bool

/-- The mutable state of a `ScroogeCoin` object: its address (derived from
its keypair at construction), the chain, and the pending transaction
list. -/
structure Scrooge where
  address : String
  chain : List Block
  current_transactions : List Tx
deriving Repr, DecidableEq

def locationJson (l : Location) : Json :=
  Json.obj [("block", Json.num l.block), ("tx", Json.num l.tx), ("amount", Json.num l.amount)]

def receiversJson (rs : List (String × Int)) : Json :=
  Json.obj (rs.map (fun r => (r.1, Json.num r.2)))

/-- The dict `{"sender": ..., "locations": ..., "receivers": ...}` whose
dump is hashed for a transaction. -/
def txContentJson (sender : String) (locations : Location)
    (receivers : List (String × Int)) : Json :=
  Json.obj [("sender", Json.str sender), ("locations", locationJson locations),
            ("receivers", receiversJson receivers)]

/-- A full transaction dict (the `fastecdsa` signature tuple dumps as a
JSON array). -/
def txJson (tx : Tx) : Json :=
  Json.obj [("sender", Json.str tx.sender), ("locations", locationJson tx.locations),
            ("receivers", receiversJson tx.receivers), ("hash", Json.str tx.hash),
            ("signature", Json.arr [Json.num tx.signature.1, Json.num tx.signature.2])]

/-- The block dict at hashing time: `previous_hash`, `index`,
`transactions` (no `hash`/`signature` key yet). -/
def blockBodyJson (previous_hash : String) (index : Int) (transactions : List Tx) : Json :=
  Json.obj [("previous_hash", Json.str previous_hash), ("index", Json.num index),
            ("transactions", Json.arr (transactions.map txJson))]

/-- `ScroogeCoin.create_hash`: SHA-256 of the sorted-keys, indent-4 JSON
dump. -/
def create_hash (block : Json) : String :=
  SHA256.sha256hex (PyJson.utf8Bytes (PyJson.dumps4 block))

/-- `ScroogeCoin.create_coins`: build, hash and sign a minting transaction
(sentinel location `{-1, -1, -1}`) and append it to the pending list. -/
def create_coins {PK : Type} (C : Crypto PK) (s : Scrooge)
    (receivers : List (String × Int)) : Scrooge :=
  let locations : Location := ⟨-1, -1, -1⟩
  let h := create_hash (txContentJson s.address locations receivers)
  let tx : Tx := ⟨s.address, locations, receivers, h, C.sign h⟩
  { s with current_transactions := s.current_transactions ++ [tx] }

/-- Inner loop of `get_user_tx_positions`: the funded locations a single
transaction (at position `txIndex` of the block with index `blockIndex`)
contributes for `address`. -/
def txFundedLocations (blockIndex txIndex : Int) (address : String) (tx : Tx) :
    List Location :=
  tx.receivers.filterMap (fun fa =>
    if address == fa.1 then some ⟨blockIndex, txIndex, fa.2⟩ else none)

/-- `ScroogeCoin.get_user_tx_positions`: every `{block, tx, amount}` at
which `address` appears as a receiver; `block` is the stored
`block["index"]`, `tx` the enumeration position in the block. -/
def get_user_tx_positions (chain : List Block) (address : String) : List Location :=
  (chain.map (fun block =>
    (block.transactions.enum.map (fun it =>
      txFundedLocations block.index it.1 address it.2)).flatten)).flatten

/-- The lookup
`self.chain[loc.block]["transactions"][loc.tx]["receivers"][sender]` from
`validate_tx`; `none` models the `IndexError`/`KeyError` it can raise. -/
def lookupReceived (chain : List Block) (tx : Tx) : Option Int :=
  (Py.pyIndex chain tx.locations.block).bind
    (fun b => (Py.pyIndex b.transactions tx.locations.tx).bind
      (fun t => Py.dictGet t.receivers tx.sender))

/-- The double-spend accumulation loop of `validate_tx`: the amounts
claimed from `tx`'s location by transactions of the same sender in the
blocks after `tx.locations.block`. -/
def spentCoins (chain : List Block) (tx : Tx) : Int :=
  (Py.pySliceFrom chain (tx.locations.block + 1)).foldl
    (fun acc block => block.transactions.foldl
      (fun acc2 transaction =>
        if transaction.sender == tx.sender &&
           transaction.locations.block == tx.locations.block &&
           transaction.locations.tx == tx.locations.tx
        then acc2 + transaction.locations.amount
        else acc2) acc) 0

/-- `ScroogeCoin.validate_tx`.  All five checks are computed; the result is
the transaction itself on success and the error message otherwise.  `none`
models the uncaught `IndexError`/`KeyError` from the `received_coins`
lookup when the referenced block, transaction or receiver entry does not
exist. -/
def validate_tx {PK : Type} (C : Crypto PK) (chain : List Block) (tx : Tx)
    (public_key : PK) : Option (Tx ⊕ String) :=
  let is_correct_hash := tx.hash == create_hash (txContentJson tx.sender tx.locations tx.receivers)
  let is_signed := C.verify tx.signature tx.hash public_key
  let funded_transactions := get_user_tx_positions chain tx.sender
  let is_funded := funded_transactions.contains tx.locations
  let amount_in := tx.locations.amount
  let amount_out := (tx.receivers.map (fun r => r.2)).sum
  let is_all_spent := amount_in == amount_out
  match lookupReceived chain tx with
  | none => none
  | some received_coins =>
      let spent_coins := spentCoins chain tx
      let consumed_previous := if amount_in ≤ received_coins - spent_coins then false else true
      some (if is_correct_hash && is_signed && is_funded && is_all_spent && !consumed_previous
        then Sum.inl tx
        else Sum.inr (
          if !is_correct_hash then "hash is invalid!"
          else if !is_signed then "signature is invalid!"
          else if !is_funded then "the coins were not created before!"
          else if !is_all_spent then "the amounts of input and output coins do not match!"
          else if consumed_previous then "double spending!"
          else ""))

/-- `ScroogeCoin.mine`: seal the pending list into a new block (previous
hash is the tip's, or `create_hash(-1)` on an empty chain), hash it, sign
it, append it and clear the pending list. -/
def mine {PK : Type} (C : Crypto PK) (s : Scrooge) : Block × Scrooge :=
  let previous_hash := match s.chain.getLast? with
    | some b => b.hash
    | none => create_hash (Json.num (-1))
  let index : Int := s.chain.length
  let h := create_hash (blockBodyJson previous_hash index s.current_transactions)
  let block : Block := ⟨previous_hash, index, s.current_transactions, h, C.sign h⟩
  (block, { s with chain := s.chain ++ [block], current_transactions := [] })

/-- `ScroogeCoin.add_tx`: validate, then append to the pending list iff the
result equals the submitted transaction.  `none` propagates a `validate_tx`
fault. -/
def add_tx {PK : Type} (C : Crypto PK) (s : Scrooge) (tx : Tx) (public_key : PK) :
    Option (Bool × Scrooge) :=
  (validate_tx C s.chain tx public_key).map (fun tx_validated =>
    match tx_validated with
    | Sum.inl t =>
        if tx == t then
          (true, { s with current_transactions := s.current_transactions ++ [tx] })
        else (false, s)
    | Sum.inr _ => (false, s))

/-- `ScroogeCoin.show_user_balance`: the printed value, received sums minus
the location amounts of every transaction sent by `address`. -/
def show_user_balance (chain : List Block) (address : String) : Int :=
  let funded_transactions := get_user_tx_positions chain address
  let balance_in := (funded_transactions.map (fun p => p.amount)).sum
  let spent_transactions := (chain.map (fun block =>
    block.transactions.filterMap (fun old_tx =>
      if old_tx.sender == address then some old_tx.locations else none))).flatten
  let balance_out := (spent_transactions.map (fun p => p.amount)).sum
  balance_in - balance_out

/-- A transaction of the shape produced by `create_coins`: the sentinel
location `{-1, -1, -1}`. -/
def IsMinted (tx : Tx) : Prop := tx.locations = ⟨-1, -1, -1⟩

/-- Chain Store invariant: block indices are positional, and every mined
transaction was either minted by the authority or accepted by
`validate_tx` against the chain prefix it was mined onto; receiver dicts
have distinct keys. -/
structure ChainOK {PK : Type} (C : Crypto PK) (chain : List Block) : Prop where
  index_eq : ∀ i block, chain.get? i = some block → block.index = (i : Int)
  tx_ok : ∀ i block, chain.get? i = some block → ∀ tx ∈ block.transactions,
    IsMinted tx ∨ ∃ pk, validate_tx C (chain.take i) tx pk = some (Sum.inl tx)
  keys_nodup : ∀ block ∈ chain, ∀ tx ∈ block.transactions,
    (tx.receivers.map Prod.fst).Nodup

/-- Ledger state invariant: the chain invariant, plus every pending
transaction is minted or was accepted against the current chain. -/
structure StateOK {PK : Type} (C : Crypto PK) (s : Scrooge) : Prop where
  chain_ok : ChainOK C s.chain
  pending_ok : ∀ tx ∈ s.current_transactions,
    IsMinted tx ∨ ∃ pk, validate_tx C s.chain tx pk = some (Sum.inl tx)
  pending_nodup : ∀ tx ∈ s.current_transactions, (tx.receivers.map Prod.fst).Nodup

/-- Ledger states reachable through the `ScroogeCoin` operations.  The
`receivers` dicts fed to `create_coins` and `add_tx` have distinct keys
(they are Python dicts).  A faulting `add_tx` kills the process, so only
non-faulting calls step. -/
inductive Reachable {PK : Type} (C : Crypto PK) : Scrooge → Prop where
  | start (address : String) :
      Reachable C { address := address, chain := [], current_transactions := [] }
  | step_create {s} (receivers : List (String × Int))
      (hnd : (receivers.map Prod.fst).Nodup) :
      Reachable C s → Reachable C (create_coins C s receivers)
  | step_mine {s} : Reachable C s → Reachable C (mine C s).2
  | step_add {s} (tx : Tx) (pk : PK) (res : Bool × Scrooge)
      (hnd : (tx.receivers.map Prod.fst).Nodup)
      (h : add_tx C s tx pk = some res) :
      Reachable C s → Reachable C res.2

end ScroogeCoin

/-- `User.create_hash` (verbatim duplicate of `ScroogeCoin.create_hash` in
the source). -/
def User.create_hash (block : Json) : String :=
  SHA256.sha256hex (PyJson.utf8Bytes (PyJson.dumps4 block))

/-- `User.send_tx`: build, hash and sign a transfer; `sign` closes over the
user's private key. -/
def User.send_tx (sign : String → Int × Int) (address : String)
    (receivers : List (String × Int)) (previous_tx_locations : ScroogeCoin.Location) :
    ScroogeCoin.Tx :=
  let h := User.create_hash
    (ScroogeCoin.txContentJson address previous_tx_locations receivers)
  ⟨address, previous_tx_locations, receivers, h, sign h⟩

/-! ## Spec-side definitions

Independent formalisations of quantities named by the specification,
written from the spec's words, to be compared against the code
embedding. -/

namespace Spec

open ScroogeCoin

/-- Spec: the amount originally received by `sender` at position
`(b, t)` of the Chain Store. -/
def receivedAt (chain : List Block) (b t : Nat) (sender : String) : Option Int :=
  (chain.get? b).bind (fun bl => (bl.transactions.get? t).bind
    (fun tr => Py.dictGet tr.receivers sender))

/-- Spec: the `locations.amount` claimed from position `(b, t)` by
`sender`'s transactions inside one block. -/
def blockMatch (block : Block) (sender : String) (b t : Int) : Int :=
  ((block.transactions.filter (fun tr =>
    tr.sender == sender && tr.locations.block == b && tr.locations.tx == t)).map
      (fun tr => tr.locations.amount)).sum

/-- Spec: the sum of `locations.amount` over transactions from `sender` in
blocks strictly after position `b` of the Chain Store that reference the
position `(b, t)`. -/
def spentAfter (chain : List Block) (sender : String) (b t : Int) : Int :=
  ((chain.drop (b + 1).toNat).map (fun block => blockMatch block sender b t)).sum

/-- Spec: the same sum restricted to the window of blocks `[lo, k)`. -/
def segmentSpent (chain : List Block) (sender : String) (b t : Int) (lo k : Nat) : Int :=
  (((chain.drop lo).take (k - lo)).map (fun block => blockMatch block sender b t)).sum

/-- Spec: position `p` of the Chain Store holds the transaction `tx`, a
spend by `sender` of the coin at `(b, t)`. -/
def MatchingAt (chain : List Block) (sender : String) (b t : Int)
    (p : Nat × Nat) (tx : Tx) : Prop :=
  ∃ block, chain.get? p.1 = some block ∧ block.transactions.get? p.2 = some tx ∧
    tx.sender = sender ∧ tx.locations.block = b ∧ tx.locations.tx = t

/-- Spec: every receiver amount recorded on the chain is nonnegative (the
intended use of `create_coins`). -/
def NonNegReceivers (chain : List Block) : Prop :=
  ∀ block ∈ chain, ∀ tx ∈ block.transactions, ∀ r ∈ tx.receivers, 0 ≤ r.2

/-- Spec (claim C3): the sum of `locations.amount` over all *other*
transactions anywhere in the Chain Store from the same sender referencing
the identical `(block, tx)` position. -/
def spentAnywhereOthers (chain : List Block) (tx : Tx) : Int :=
  (chain.map (fun block =>
    ((block.transactions.filter (fun tr =>
      tr != tx && tr.sender == tx.sender &&
      tr.locations.block == tx.locations.block &&
      tr.locations.tx == tx.locations.tx)).map
        (fun tr => tr.locations.amount)).sum)).sum

/-- Spec: the sum of amounts received by `address` across committed
transactions. -/
def receivedSum (chain : List Block) (address : String) : Int :=
  (chain.map (fun block =>
    (block.transactions.map (fun tr =>
      ((tr.receivers.filter (fun r => address == r.1)).map (fun r => r.2)).sum)).sum)).sum

/-- Spec: the sum of `locations.amount` over all committed transactions
whose sender is `address` (minted sentinel locations included). -/
def claimedSum (chain : List Block) (address : String) : Int :=
  (chain.map (fun block =>
    ((block.transactions.filter (fun tr => tr.sender == address)).map
      (fun tr => tr.locations.amount)).sum)).sum

/-- Spec (claim C9): as `claimedSum` but with minted transactions
(sentinel location `{-1, -1, -1}`) contributing nothing. -/
def claimedSumNonMint (chain : List Block) (address : String) : Int :=
  (chain.map (fun block =>
    ((block.transactions.filter (fun tr =>
      tr.sender == address && tr.locations != Location.mk (-1) (-1) (-1))).map
      (fun tr => tr.locations.amount)).sum)).sum

end Spec

/-! ## Concrete data for counterexamples and witnesses -/

/-- A crypto collaborator in which every submitted signature verifies; in
the repository the actors sign their own transactions with their own
`fastecdsa` keys, which likewise verify. -/
def trivialCrypto : ScroogeCoin.Crypto Unit :=
  ⟨fun _ => (0, 0), fun _ _ _ => true⟩

/-- A fresh proof-of-work block at a very low difficulty (target
`0xFFFFFF * 2^232`), whose very first hash already qualifies. -/
def powCexBlock : ProofOfWork.PowBlock :=
  ⟨Json.num 0, 0, [], 0x20FFFFFF, 0, "2020-01-01 00:00:00.000000"⟩

def powCexSealed : ProofOfWork.SealedBlock :=
  ⟨powCexBlock, ProofOfWork.calculate_hash powCexBlock⟩

/-- Initial ledger state of an authority with address `"scrooge"`. -/
def cexS0 : ScroogeCoin.Scrooge := ⟨"scrooge", [], []⟩

/-- After `create_coins {alice: 10}`. -/
def cexS1 : ScroogeCoin.Scrooge := ScroogeCoin.create_coins trivialCrypto cexS0 [("alice", 10)]

/-- After `mine()`: one block whose transaction 0 funds alice with 10. -/
def cexS2 : ScroogeCoin.Scrooge := (ScroogeCoin.mine trivialCrypto cexS1).2

/-- Alice spends her coin at `(0, 0)` to bob. -/
def cexTx1 : ScroogeCoin.Tx :=
  User.send_tx (fun _ => (0, 0)) "alice" [("bob", 10)] ⟨0, 0, 10⟩

/-- A second, distinct spend of the same coin at `(0, 0)`, to carol. -/
def cexTx2 : ScroogeCoin.Tx :=
  User.send_tx (fun _ => (0, 0)) "alice" [("carol", 10)] ⟨0, 0, 10⟩

/-- The state after `add_tx` accepted `cexTx1`. -/
def cexS3 : ScroogeCoin.Scrooge :=
  { cexS2 with current_transactions := cexS2.current_transactions ++ [cexTx1] }

/-- The state after `add_tx` also accepted `cexTx2`. -/
def cexS4 : ScroogeCoin.Scrooge :=
  { cexS3 with current_transactions := cexS3.current_transactions ++ [cexTx2] }

/-- A conservation-violating spend (10 in, 7 out), used to exhibit a
rejection. -/
def cexTxBadAmount : ScroogeCoin.Tx :=
  User.send_tx (fun _ => (0, 0)) "alice" [("bob", 7)] ⟨0, 0, 10⟩

/-- A hand-crafted chain transaction that *forward*-references position
`(1, 0)` from block 0; never validated, but sitting in the Chain Store. -/
def c3TxForward : ScroogeCoin.Tx := ⟨"alice", ⟨1, 0, 10⟩, [("xavier", 10)], "fhash", (0, 0)⟩

/-- A minting transaction funding alice at position `(1, 0)`. -/
def c3Mint : ScroogeCoin.Tx := ⟨"scrooge", ⟨-1, -1, -1⟩, [("alice", 10)], "mhash", (0, 0)⟩

def c3Block0 : ScroogeCoin.Block := ⟨"prev0", 0, [c3TxForward], "bh0", (0, 0)⟩

def c3Block1 : ScroogeCoin.Block := ⟨"prev1", 1, [c3Mint], "bh1", (0, 0)⟩

/-- A chain in which a same-sender spend of `(1, 0)` sits in block 0,
*before* the defining block 1. -/
def c3Chain : List ScroogeCoin.Block := [c3Block0, c3Block1]

/-- A properly hashed spend of `(1, 0)` by alice. -/
def c3Tx : ScroogeCoin.Tx :=
  User.send_tx (fun _ => (0, 0)) "alice" [("yann", 10)] ⟨1, 0, 10⟩

/-! ## Helper lemmas -/

theorem digitsF_zero (b : Nat) : ∀ f, digitsF b f 0 = 0 := by
  intro f
  cases f <;> rfl

theorem digitsF_spec {b : Nat} (hb : 2 ≤ b) :
    ∀ f k n, b ^ k ≤ n → n < b ^ (k + 1) → n ≤ f → digitsF b f n = k + 1 := by
  intro f
  induction f with
  | zero =>
    intro k n h1 h2 hf
    have : 0 < b ^ k := Nat.pos_pow_of_pos k (by omega)
    omega
  | succ f ih =>
    intro k n h1 h2 hf
    have hbpos : 0 < b := by omega
    have hnpos : 0 < n := lt_of_lt_of_le (Nat.pos_pow_of_pos k hbpos) h1
    obtain ⟨n', rfl⟩ : ∃ n', n = n' + 1 := ⟨n - 1, by omega⟩
    show digitsF b f ((n' + 1) / b) + 1 = k + 1
    cases k with
    | zero =>
      have hlt : n' + 1 < b := by simpa using h2
      rw [Nat.div_eq_of_lt hlt, digitsF_zero]
    | succ k' =>
      have h1' : b ^ k' ≤ (n' + 1) / b := by
        rw [Nat.le_div_iff_mul_le hbpos]
        calc b ^ k' * b = b ^ (k' + 1) := (pow_succ b k').symm
          _ ≤ n' + 1 := h1
      have h2' : (n' + 1) / b < b ^ (k' + 1) := by
        rw [Nat.div_lt_iff_lt_mul hbpos]
        calc n' + 1 < b ^ (k' + 1 + 1) := h2
          _ = b ^ (k' + 1) * b := pow_succ b (k' + 1)
      have hf' : (n' + 1) / b ≤ f := by
        have : (n' + 1) / b < n' + 1 := Nat.div_lt_self (by omega) (by omega)
        omega
      rw [ih k' ((n' + 1) / b) h1' h2' hf']

theorem hexDigits_spec {k n : Nat} (h1 : 16 ^ k ≤ n) (h2 : n < 16 ^ (k + 1)) :
    ProofOfWork.hexDigits n = k + 1 := by
  have hn : ¬ n = 0 := by
    have : 0 < (16 : Nat) ^ k := Nat.pos_pow_of_pos k (by norm_num)
    omega
  unfold ProofOfWork.hexDigits
  rw [if_neg hn]
  exact digitsF_spec (by norm_num) n k n h1 h2 le_rfl

theorem and_shiftLeft_shiftRight (x c k : Nat) :
    (x &&& (c <<< k)) >>> k = (x >>> k) &&& c := by
  apply Nat.eq_of_testBit_eq
  intro i
  rw [Nat.testBit_shiftRight, Nat.testBit_and, Nat.testBit_and,
    Nat.testBit_shiftRight, Nat.testBit_shiftLeft]
  have h1 : k ≤ k + i := Nat.le_add_right k i
  simp [h1, Nat.add_sub_cancel_left]

theorem get_target_from_bits_decomp (e m : Nat) (he : e < 256) (hm : m < 2 ^ 24) :
    ProofOfWork.get_target_from_bits (e * 2 ^ 24 + m) = m * 2 ^ (8 * (e - 3)) := by
  unfold ProofOfWork.get_target_from_bits
  have hdiv : (e * 2 ^ 24 + m) >>> 24 = e := by
    rw [Nat.shiftRight_eq_div_pow, Nat.mul_comm e (2 ^ 24), Nat.mul_add_div (by norm_num),
      Nat.div_eq_of_lt hm, Nat.add_zero]
  have h1 : ((e * 2 ^ 24 + m) &&& 0xFF000000) >>> 24 = e := by
    rw [show (0xFF000000 : Nat) = 0xFF <<< 24 by norm_num [Nat.shiftLeft_eq],
      and_shiftLeft_shiftRight, hdiv,
      show (0xFF : Nat) = 2 ^ 8 - 1 by norm_num,
      Nat.and_pow_two_sub_one_eq_mod, Nat.mod_eq_of_lt (by omega)]
  have h2 : (e * 2 ^ 24 + m) &&& 0x00FFFFFF = m := by
    rw [show (0x00FFFFFF : Nat) = 2 ^ 24 - 1 by norm_num,
      Nat.and_pow_two_sub_one_eq_mod, Nat.mul_comm e (2 ^ 24), Nat.mul_add_mod,
      Nat.mod_eq_of_lt hm]
  simp only [h1, h2]

theorem pow16_as_pow2 (a : Nat) : (16 : Nat) ^ a = 2 ^ (4 * a) := by
  rw [show (16 : Nat) = 2 ^ 4 from rfl, ← pow_mul]

theorem get_bits_from_target_decomp (E m : Nat) (hm1 : 2 ^ 16 ≤ m) (hm2 : m < 2 ^ 24) :
    ProofOfWork.get_bits_from_target (m * 2 ^ (8 * E)) = (3 + E) * 2 ^ 24 + m := by
  have hpow : (0 : Nat) < 2 ^ (8 * E) := Nat.pos_pow_of_pos _ (by norm_num)
  have hhex : ProofOfWork.hexDigits (m * 2 ^ (8 * E)) = 2 * E + 5 ∨
      ProofOfWork.hexDigits (m * 2 ^ (8 * E)) = 2 * E + 6 := by
    rcases Nat.lt_or_ge m (2 ^ 20) with hcase | hcase
    · left
      apply hexDigits_spec (k := 2 * E + 4)
      · calc (16 : Nat) ^ (2 * E + 4) = 2 ^ (4 * (2 * E + 4)) := pow16_as_pow2 _
          _ = 2 ^ 16 * 2 ^ (8 * E) := by rw [← pow_add]; congr 1; omega
          _ ≤ m * 2 ^ (8 * E) := Nat.mul_le_mul_right _ hm1
      · calc m * 2 ^ (8 * E) < 2 ^ 20 * 2 ^ (8 * E) := by
              exact (Nat.mul_lt_mul_right hpow).mpr hcase
          _ = 2 ^ (4 * (2 * E + 4 + 1)) := by rw [← pow_add]; congr 1; omega
          _ = 16 ^ (2 * E + 4 + 1) := (pow16_as_pow2 _).symm
    · right
      apply hexDigits_spec (k := 2 * E + 5)
      · calc (16 : Nat) ^ (2 * E + 5) = 2 ^ (4 * (2 * E + 5)) := pow16_as_pow2 _
          _ = 2 ^ 20 * 2 ^ (8 * E) := by rw [← pow_add]; congr 1; omega
          _ ≤ m * 2 ^ (8 * E) := Nat.mul_le_mul_right _ hcase
      · calc m * 2 ^ (8 * E) < 2 ^ 24 * 2 ^ (8 * E) := by
              exact (Nat.mul_lt_mul_right hpow).mpr hm2
          _ = 2 ^ (4 * (2 * E + 5 + 1)) := by rw [← pow_add]; congr 1; omega
          _ = 16 ^ (2 * E + 5 + 1) := (pow16_as_pow2 _).symm
  have hpart1 : (if ProofOfWork.hexDigits (m * 2 ^ (8 * E)) * 4 % 8 ≠ 0
      then ProofOfWork.hexDigits (m * 2 ^ (8 * E)) * 4 +
        (8 - ProofOfWork.hexDigits (m * 2 ^ (8 * E)) * 4 % 8)
      else ProofOfWork.hexDigits (m * 2 ^ (8 * E)) * 4) / 8 = 3 + E := by
    rcases hhex with h | h <;> rw [h]
    · rw [if_pos (by omega : (2 * E + 5) * 4 % 8 ≠ 0)]
      omega
    · rw [if_neg (by omega : ¬ (2 * E + 6) * 4 % 8 ≠ 0)]
      omega
  unfold ProofOfWork.get_bits_from_target
  dsimp only
  rw [hpart1]
  have hshift : (m * 2 ^ (8 * E)) >>> (8 * (3 + E - 3)) = m := by
    rw [show 3 + E - 3 = E by omega, Nat.shiftRight_eq_div_pow,
      Nat.mul_div_assoc m (dvd_refl (2 ^ (8 * E))), Nat.div_self hpow, Nat.mul_one]
  rw [hshift, Nat.shiftLeft_eq, Nat.mul_comm (3 + E) (2 ^ 24)]
  exact (Nat.mul_add_lt_is_or hm2 (3 + E)).symm

/-! ## Claim C5: compact-target bounded-precision round-trip -/

/-- C5 counterexample: the bits value `0x05000001` has exponent `5 ≥ 3` and
nonzero 24-bit mantissa `1`, yet `get_bits_from_target (get_target_from_bits b)`
returns the normalised `0x03010000`, not `b`. -/
theorem C5_counterexample :
    3 ≤ (0x05000001 : Nat) >>> 24 ∧ (0x05000001 : Nat) &&& 0xFFFFFF ≠ 0 ∧
    ProofOfWork.get_bits_from_target (ProofOfWork.get_target_from_bits 0x05000001) =
      0x03010000 ∧ (0x03010000 : Nat) ≠ 0x05000001 :=
  ⟨by decide, by decide, by decide, by decide⟩

/-- C5 (amended): for every 32-bit bits value `b` whose exponent `b >>> 24`
is at least 3 and whose 24-bit mantissa is *normalised* (top mantissa byte
nonzero, i.e. `2^16 ≤ b &&& 0xFFFFFF`), encoding the decoded target,
`get_bits_from_target (get_target_from_bits b)`, yields `b` again; whereas
`decode (encode t)` for an arbitrary positive target `t` need not equal
`t`, because the mantissa is truncated. -/
theorem C5_compact_roundtrip :
    (∀ b : Nat, b < 2 ^ 32 → 3 ≤ b >>> 24 → 2 ^ 16 ≤ b &&& 0xFFFFFF →
      ProofOfWork.get_bits_from_target (ProofOfWork.get_target_from_bits b) = b) ∧
    (∃ t : Nat, 0 < t ∧
      ProofOfWork.get_target_from_bits (ProofOfWork.get_bits_from_target t) ≠ t) := by
  constructor
  · intro b hb32 he hm
    have hme : b &&& 0xFFFFFF = b % 2 ^ 24 := by
      rw [show (0xFFFFFF : Nat) = 2 ^ 24 - 1 by norm_num, Nat.and_pow_two_sub_one_eq_mod]
    have hsh : b >>> 24 = b / 2 ^ 24 := Nat.shiftRight_eq_div_pow b 24
    have hb : b = (b / 2 ^ 24) * 2 ^ 24 + b % 2 ^ 24 := by
      rw [Nat.mul_comm]
      exact (Nat.div_add_mod b (2 ^ 24)).symm
    have hb32' : b < 4294967296 := by norm_num at hb32; exact hb32
    have he' : b / 2 ^ 24 < 256 := by omega
    have hm24 : b % 2 ^ 24 < 2 ^ 24 := Nat.mod_lt _ (by norm_num)
    have he3 : 3 ≤ b / 2 ^ 24 := by rwa [hsh] at he
    have hm16 : 2 ^ 16 ≤ b % 2 ^ 24 := by rwa [hme] at hm
    calc ProofOfWork.get_bits_from_target (ProofOfWork.get_target_from_bits b)
        = ProofOfWork.get_bits_from_target
            (ProofOfWork.get_target_from_bits ((b / 2 ^ 24) * 2 ^ 24 + b % 2 ^ 24)) := by
          rw [← hb]
      _ = ProofOfWork.get_bits_from_target
            ((b % 2 ^ 24) * 2 ^ (8 * (b / 2 ^ 24 - 3))) := by
          rw [get_target_from_bits_decomp _ _ he' hm24]
      _ = (3 + (b / 2 ^ 24 - 3)) * 2 ^ 24 + b % 2 ^ 24 :=
          get_bits_from_target_decomp (b / 2 ^ 24 - 3) (b % 2 ^ 24) hm16 hm24
      _ = b := by
          rw [show 3 + (b / 2 ^ 24 - 3) = b / 2 ^ 24 by omega]
          exact hb.symm
  · exact ⟨2 ^ 24 + 1, by norm_num, by decide⟩

/-- C5 witness: the round-trip law applied at the concrete initial
difficulty `0x1EFFFFFF`. -/
theorem C5_compact_roundtrip_witness :
    ProofOfWork.get_bits_from_target (ProofOfWork.get_target_from_bits 0x1EFFFFFF) =
      0x1EFFFFFF ∧ (0x1EFFFFFF : Nat) < 2 ^ 32 ∧ 3 ≤ (0x1EFFFFFF : Nat) >>> 24 ∧
      2 ^ 16 ≤ (0x1EFFFFFF : Nat) &&& 0xFFFFFF :=
  ⟨C5_compact_roundtrip.1 0x1EFFFFFF (by norm_num) (by decide) (by decide),
   by norm_num, by decide, by decide⟩

/-! ## Claim C7: zero desired timespan -/

/-- C7 counterexample: with `target_time = 0` the concrete retarget call
faults (uncaught `ZeroDivisionError`, modelled as `none`); no
`ConfigurationError` rejection exists in the code. -/
theorem C7_counterexample :
    ProofOfWork.change_target 0x1EFFFFFF "2020-01-01 00:00:00.000000"
      "2020-01-01 00:00:10.000000" 0 = none := by
  decide

/-- C7 (amended): for every `prev_bits` and every pair of timestamp
strings, calling `change_target` with a `desired_timespan` of zero never
returns a result: the division by zero faults (the parse may fault
first). -/
theorem C7_zero_timespan_faults (prev_bits : Nat) (start_time end_time : String) :
    ProofOfWork.change_target prev_bits start_time end_time 0 = none := by
  unfold ProofOfWork.change_target
  cases ProofOfWork.read_str_time end_time with
  | none => rfl
  | some de =>
    cases ProofOfWork.read_str_time start_time with
    | none => rfl
    | some ds =>
      simp [PyFloat.intTrueDiv, PyFloat.trueDivPos]

/-! ## Claim C6: retarget arithmetic -/

theorem bitlen_of {n k : Nat} (h1 : 2 ^ k ≤ n) (h2 : n < 2 ^ (k + 1)) :
    PyFloat.bitlen n = k + 1 :=
  digitsF_spec (Nat.le_refl 2) n k n h1 h2 (Nat.le_refl n)

/-- Float true division is exact on an exactly-representable integer
quotient: `(q * c) / q` rounds to the dyadic value of `c`. -/
theorem trueDivPos_mul (q c : Nat) (hq : 0 < q) (hc0 : 0 < c) (hc : c < 2 ^ 53) :
    (PyFloat.trueDivPos (q * c) q).map (fun me => PyFloat.truncDyadic me.1 me.2) =
      some c := by
  set L := Nat.log2 c with hL
  set M := Nat.log2 q with hM
  set D := Nat.log2 (q * c) with hD
  have hqc0 : 0 < q * c := Nat.mul_pos hq hc0
  have hcL1 : 2 ^ L ≤ c := Nat.log2_self_le hc0.ne'
  have hcL2 : c < 2 ^ (L + 1) := Nat.lt_log2_self
  have hqM1 : 2 ^ M ≤ q := Nat.log2_self_le hq.ne'
  have hqM2 : q < 2 ^ (M + 1) := Nat.lt_log2_self
  have hL52 : L ≤ 52 := by
    have := (Nat.log2_lt hc0.ne').mpr hc
    omega
  have hD1 : L + M ≤ D := by
    rw [hD]
    refine (Nat.le_log2 hqc0.ne').mpr ?_
    calc 2 ^ (L + M) = 2 ^ M * 2 ^ L := by rw [← pow_add]; ring_nf
      _ ≤ q * c := Nat.mul_le_mul hqM1 hcL1
  have hD2 : D ≤ L + M + 1 := by
    have : D < L + M + 2 := by
      rw [hD]
      refine (Nat.log2_lt hqc0.ne').mpr ?_
      calc q * c < 2 ^ (M + 1) * 2 ^ (L + 1) :=
            Nat.mul_lt_mul_of_lt_of_lt hqM2 hcL2
        _ = 2 ^ (L + M + 2) := by rw [← pow_add]; ring_nf
    omega
  have hblp : PyFloat.bitlen (q * c) = D + 1 :=
    bitlen_of (Nat.log2_self_le hqc0.ne') Nat.lt_log2_self
  have hblq : PyFloat.bitlen q = M + 1 :=
    bitlen_of (Nat.log2_self_le hq.ne') Nat.lt_log2_self
  -- the scaling exponent is the natural number K
  set K : Nat := 55 + M - D with hK
  have hKrange : 54 - L ≤ K ∧ K ≤ 55 - L := by omega
  have hKpos : 2 ≤ K := by omega
  have hkk : (55 : Int) - ((PyFloat.bitlen (q * c) : Int) - (PyFloat.bitlen q : Int)) = (K : Int) := by
    rw [hblp, hblq]
    omega
  -- the scaled exact quotient
  have ht : (q * c) <<< K / q = c * 2 ^ K := by
    rw [Nat.shiftLeft_eq, Nat.mul_assoc, Nat.mul_div_cancel_left _ hq]
  have htm : (q * c) <<< K % q = 0 := by
    rw [Nat.shiftLeft_eq, Nat.mul_assoc, Nat.mul_mod_right]
  have hblt : PyFloat.bitlen (c * 2 ^ K) = L + K + 1 := by
    apply bitlen_of
    · calc 2 ^ (L + K) = 2 ^ L * 2 ^ K := by rw [← pow_add]
        _ ≤ c * 2 ^ K := Nat.mul_le_mul_right _ hcL1
    · calc c * 2 ^ K < 2 ^ (L + 1) * 2 ^ K :=
          (Nat.mul_lt_mul_right (Nat.pos_pow_of_pos _ (by norm_num))).mpr hcL2
        _ = 2 ^ (L + K + 1) := by rw [← pow_add]; ring_nf
  -- evaluate roundRatio
  have hround : PyFloat.roundRatio (q * c) q =
      (c * 2 ^ (52 - L), (L : Int) - 52) := by
    have h0K : (0 : Int) ≤ (K : Int) := Int.natCast_nonneg K
    have hbfalse : ((q * c) <<< K % q != 0) = false := by
      rw [htm]
      rfl
    simp only [PyFloat.roundRatio, PyFloat.divScaled, hkk, if_pos h0K, Int.toNat_natCast,
      ht, hbfalse, hblt]
    rw [show L + K + 1 - 53 = L + K - 52 by omega]
    have hrem : c * 2 ^ K &&& 1 <<< (L + K - 52) - 1 = 0 := by
      rw [Nat.one_shiftLeft, Nat.and_pow_two_sub_one_eq_mod]
      have hsplit : c * 2 ^ K = c * 2 ^ (K - (L + K - 52)) * 2 ^ (L + K - 52) := by
        rw [Nat.mul_assoc, ← pow_add]
        congr 2
        omega
      rw [hsplit, Nat.mul_mod_left]
    have hm0 : (c * 2 ^ K) >>> (L + K - 52) = c * 2 ^ (52 - L) := by
      rw [Nat.shiftRight_eq_div_pow]
      have hsplit : c * 2 ^ K = c * 2 ^ (52 - L) * 2 ^ (L + K - 52) := by
        rw [Nat.mul_assoc, ← pow_add]
        congr 2
        omega
      rw [hsplit, Nat.mul_div_assoc _ (dvd_refl _), Nat.div_self
        (Nat.pos_pow_of_pos _ (by norm_num)), Nat.mul_one]
    rw [hrem, hm0]
    have hhalf : 0 < 1 <<< (L + K - 52 - 1) := by
      rw [Nat.one_shiftLeft]
      exact Nat.pos_pow_of_pos _ (by norm_num)
    rw [if_neg (by omega : ¬ 1 <<< (L + K - 52 - 1) < 0), if_pos hhalf]
    have hnotpow : ¬ c * 2 ^ (52 - L) = 1 <<< 53 := by
      rw [Nat.one_shiftLeft]
      have : c * 2 ^ (52 - L) < 2 ^ 53 := by
        calc c * 2 ^ (52 - L) < 2 ^ (L + 1) * 2 ^ (52 - L) :=
            (Nat.mul_lt_mul_right (Nat.pos_pow_of_pos _ (by norm_num))).mpr hcL2
          _ = 2 ^ (L + 1 + (52 - L)) := by rw [← pow_add]
          _ ≤ 2 ^ 53 := Nat.pow_le_pow_right (by norm_num) (by omega)
      omega
    simp only [Bool.false_eq_true, if_false]
    rw [if_neg hnotpow]
    simp only [Prod.mk.injEq]
    exact ⟨trivial, by omega⟩
  have htrunc : PyFloat.truncDyadic (c * 2 ^ (52 - L)) ((L : Int) - 52) = c := by
    unfold PyFloat.truncDyadic
    rcases Nat.lt_or_ge L 52 with h | h
    · rw [if_neg (by omega : ¬ (0 : Int) ≤ (L : Int) - 52),
        show ((-(((L : Int) - 52))).toNat) = 52 - L by omega,
        Nat.shiftRight_eq_div_pow, Nat.mul_div_assoc _ (dvd_refl _),
        Nat.div_self (Nat.pos_pow_of_pos _ (by norm_num)), Nat.mul_one]
    · have h52 : L = 52 := by omega
      rw [h52]
      norm_num
  unfold PyFloat.trueDivPos
  rw [if_neg hq.ne', if_neg hqc0.ne', hround]
  rw [if_neg (by omega : ¬ (972 : Int) ≤ (L : Int) - 52)]
  rw [Option.map_some', htrunc]
/-- `int(a / b)` is exact whenever the true quotient is an integer of
magnitude below `2^53`. -/
theorem intTrueDiv_exact (a b c : Int) (hb : b ≠ 0) (hc : a = b * c)
    (hlt : c.natAbs < 2 ^ 53) : PyFloat.intTrueDiv a b = some c := by
  rcases eq_or_ne c 0 with rfl | hc0
  · have hq : ¬ b.natAbs = 0 := Int.natAbs_ne_zero.mpr hb
    simp [PyFloat.intTrueDiv, PyFloat.trueDivPos, PyFloat.truncDyadic, hc, hq]
  · have hq : 0 < b.natAbs := Int.natAbs_pos.mpr hb
    have hcn : 0 < c.natAbs := Int.natAbs_pos.mpr hc0
    have hpa : a.natAbs = b.natAbs * c.natAbs := by rw [hc, Int.natAbs_mul]
    have hmap := trueDivPos_mul b.natAbs c.natAbs hq hcn hlt
    obtain ⟨me, hme, htr⟩ : ∃ me, PyFloat.trueDivPos (b.natAbs * c.natAbs) b.natAbs = some me ∧
        PyFloat.truncDyadic me.1 me.2 = c.natAbs := by
      cases hopt : PyFloat.trueDivPos (b.natAbs * c.natAbs) b.natAbs with
      | none => rw [hopt] at hmap; simp at hmap
      | some me =>
          rw [hopt] at hmap
          simp only [Option.map_some', Option.some.injEq] at hmap
          exact ⟨me, rfl, hmap⟩
    unfold PyFloat.intTrueDiv
    rw [hpa, hme, Option.map_some']
    congr 1
    rw [htr]
    rcases lt_or_gt_of_ne hb with hbneg | hbpos
    · rcases lt_or_gt_of_ne hc0 with hcneg | hcpos
      · have ha : 0 < a := by rw [hc]; exact mul_pos_of_neg_of_neg hbneg hcneg
        rw [if_neg (by omega)]
        omega
      · have ha : a < 0 := by rw [hc]; exact mul_neg_of_neg_of_pos hbneg hcpos
        rw [if_pos (by omega)]
        omega
    · rcases lt_or_gt_of_ne hc0 with hcneg | hcpos
      · have ha : a < 0 := by rw [hc]; exact mul_neg_of_pos_of_neg hbpos hcneg
        rw [if_neg (by omega)]
        omega
      · have ha : 0 < a := by rw [hc]; exact mul_pos hbpos hcpos
        rw [if_pos (by omega)]
        omega

/-- C6 counterexample: the concrete retarget of `0x04000100` over an
observed 20 s against a desired 10 s returns the raw new target `131072`,
which is *not* the compact re-encoding `get_bits_from_target 131072 =
0x03020000`: `change_target` does not re-encode. -/
theorem C6_counterexample :
    ProofOfWork.change_target 0x04000100 "2020-01-01 00:00:00.000000"
      "2020-01-01 00:00:20.000000" 10 = some 131072 ∧
    ProofOfWork.get_bits_from_target 131072 = 0x03020000 ∧
    (131072 : Int) ≠ 0x03020000 :=
  ⟨by decide, by decide, by decide⟩

/-- C6 (amended): when both timestamps parse, the desired timespan is
nonzero and the exact quotient is an integer of magnitude below `2^53`
(so that the float true division is exact), `change_target` computes
exactly `decode(prev_bits) * observed / desired` — `observed` being the
difference of the two timestamps each truncated to whole seconds — and
returns that target value itself; the caller re-encodes it separately. -/
theorem C6_change_target_exact (prev_bits : Nat) (start_time end_time : String)
    (target_time : Int) (ds de : ProofOfWork.PyDateTime)
    (hs : ProofOfWork.read_str_time start_time = some ds)
    (he : ProofOfWork.read_str_time end_time = some de)
    (htt : target_time ≠ 0)
    (hdvd : target_time ∣ (ProofOfWork.get_target_from_bits prev_bits : Int) *
      (ProofOfWork.datetime_to_seconds de - ProofOfWork.datetime_to_seconds ds))
    (hsmall : (((ProofOfWork.get_target_from_bits prev_bits : Int) *
        (ProofOfWork.datetime_to_seconds de - ProofOfWork.datetime_to_seconds ds)) /
        target_time).natAbs < 2 ^ 53) :
    ProofOfWork.change_target prev_bits start_time end_time target_time =
      some ((ProofOfWork.get_target_from_bits prev_bits : Int) *
        (ProofOfWork.datetime_to_seconds de - ProofOfWork.datetime_to_seconds ds) /
        target_time) := by
  unfold ProofOfWork.change_target
  rw [he, hs]
  show PyFloat.intTrueDiv _ _ = _
  exact intTrueDiv_exact _ _ _ htt (Int.mul_ediv_cancel' hdvd).symm hsmall

/-- C6 witness: the amended theorem applied at the concrete retarget of
`0x04000100` over 20 observed seconds against 10 desired seconds. -/
theorem C6_change_target_exact_witness :
    ProofOfWork.change_target 0x04000100 "2020-01-01 00:00:00.000000"
      "2020-01-01 00:00:20.000000" 10 = some 131072 := by
  have h := C6_change_target_exact 0x04000100 "2020-01-01 00:00:00.000000"
    "2020-01-01 00:00:20.000000" 10
    (ProofOfWork.PyDateTime.mk 2020 1 1 0 0 0 0)
    (ProofOfWork.PyDateTime.mk 2020 1 1 0 0 20 0)
    (by decide) (by decide) (by decide) ⟨131072, by decide⟩ (by decide)
  rw [h]
  decide

/-! ## Claim C10: the two hash implementations agree -/

/-- C10: for every input value, `User.create_hash` returns the same digest
as `ScroogeCoin.create_hash`: both are the SHA-256 hex digest of the
sorted-keys, indent-4, UTF-8 encoded JSON dump, so a transaction hashed by
its creating user passes the validator's hash recomputation unchanged. -/
theorem C10_create_hash_agree :
    ∀ block : Json, User.create_hash block = ScroogeCoin.create_hash block :=
  fun _ => rfl

/-! ## Claim C8: ledger mine -/

/-- C8: from every ledger state, `mine` appends exactly one new block whose
`previous_hash` is the tip block's hash (or the sentinel `create_hash (-1)`
when the chain is empty), whose `index` equals the chain length before the
call, and whose transactions are exactly the pending set; the block carries
its canonical hash of `{previous_hash, index, transactions}` and the
authority's signature; afterwards the pending set is empty.  The operation
is total, so in particular it succeeds when the pending set is empty. -/
theorem C8_ledger_mine {PK : Type} (C : ScroogeCoin.Crypto PK) (s : ScroogeCoin.Scrooge) :
    (ScroogeCoin.mine C s).2.chain = s.chain ++ [(ScroogeCoin.mine C s).1] ∧
    (ScroogeCoin.mine C s).1.index = (s.chain.length : Int) ∧
    (ScroogeCoin.mine C s).1.transactions = s.current_transactions ∧
    (s.chain = [] →
      (ScroogeCoin.mine C s).1.previous_hash = ScroogeCoin.create_hash (Json.num (-1))) ∧
    (∀ tip, s.chain.getLast? = some tip →
      (ScroogeCoin.mine C s).1.previous_hash = tip.hash) ∧
    (ScroogeCoin.mine C s).1.hash = ScroogeCoin.create_hash
      (ScroogeCoin.blockBodyJson (ScroogeCoin.mine C s).1.previous_hash
        ((s.chain.length : Int)) s.current_transactions) ∧
    (ScroogeCoin.mine C s).1.signature = C.sign (ScroogeCoin.mine C s).1.hash ∧
    (ScroogeCoin.mine C s).2.current_transactions = [] ∧
    (ScroogeCoin.mine C s).2.address = s.address := by
  refine ⟨?_, ?_, ?_, ?_, ?_, ?_, ?_, ?_, ?_⟩ <;> simp only [ScroogeCoin.mine] <;> try rfl
  · intro h
    rw [h]
    rfl
  · intro tip htip
    rw [htip]

/-! ## Claim C4: proof-of-work mine -/

theorem mineLoop_sound (target : Nat) :
    ∀ (fuel : Nat) (block : ProofOfWork.PowBlock) (sb : ProofOfWork.SealedBlock),
      ProofOfWork.mineLoop target fuel block = some sb →
      SHA256.intOfHex sb.hash < target ∧
      sb.hash = ProofOfWork.calculate_hash sb.block ∧
      ∃ k : Nat, sb.block = { block with nonce := block.nonce + k } := by
  intro fuel
  induction fuel with
  | zero =>
    intro block sb h
    simp only [ProofOfWork.mineLoop] at h
    by_cases hge : SHA256.intOfHex (ProofOfWork.calculate_hash block) ≥ target
    · rw [if_pos hge] at h
      exact absurd h (by simp)
    · rw [if_neg hge] at h
      obtain ⟨sbb, sbh⟩ := sb
      simp only [Option.some.injEq, ProofOfWork.SealedBlock.mk.injEq] at h
      obtain ⟨rfl, rfl⟩ := h
      dsimp only
      refine ⟨by omega, rfl, 0, by simp⟩
  | succ f ih =>
    intro block sb h
    simp only [ProofOfWork.mineLoop] at h
    by_cases hge : SHA256.intOfHex (ProofOfWork.calculate_hash block) ≥ target
    · rw [if_pos hge] at h
      obtain ⟨h1, h2, k, hk⟩ := ih _ _ h
      refine ⟨h1, h2, k + 1, ?_⟩
      rw [hk]
      simp only [ProofOfWork.PowBlock.mk.injEq, true_and, and_true]
      omega
    · rw [if_neg hge] at h
      obtain ⟨sbb, sbh⟩ := sb
      simp only [Option.some.injEq, ProofOfWork.SealedBlock.mk.injEq] at h
      obtain ⟨rfl, rfl⟩ := h
      dsimp only
      refine ⟨by omega, rfl, 0, by simp⟩

/-- C4: `mine` searches by recomputing the hash and bumping the nonce while
the hash's numeric value is not below `get_target_from_bits block.bits`.
Whenever it returns, the sealed block (the input block with its nonce
advanced some number of steps) is appended to the chain, and its stored
hash — the canonical hash of the block without its `hash` field — is
strictly below the decoded target.  Consequently every sealed block of a
miner-reachable chain satisfies the soundness bound. -/
theorem C4_mine_soundness :
    (∀ (fuel : Nat) (chain : List ProofOfWork.SealedBlock) (block : ProofOfWork.PowBlock)
      (sb : ProofOfWork.SealedBlock) (chain' : List ProofOfWork.SealedBlock),
      ProofOfWork.mine fuel chain block = some (sb, chain') →
      chain' = chain ++ [sb] ∧
      SHA256.intOfHex sb.hash < ProofOfWork.get_target_from_bits block.bits ∧
      sb.hash = ProofOfWork.calculate_hash sb.block ∧
      ∃ k : Nat, sb.block = { block with nonce := block.nonce + k }) ∧
    (∀ chain, ProofOfWork.MinerReachable chain → ∀ sb ∈ chain,
      SHA256.intOfHex sb.hash < ProofOfWork.get_target_from_bits sb.block.bits ∧
      sb.hash = ProofOfWork.calculate_hash sb.block) := by
  have hmine : ∀ (fuel : Nat) (chain : List ProofOfWork.SealedBlock)
      (block : ProofOfWork.PowBlock) (sb : ProofOfWork.SealedBlock)
      (chain' : List ProofOfWork.SealedBlock),
      ProofOfWork.mine fuel chain block = some (sb, chain') →
      chain' = chain ++ [sb] ∧
      SHA256.intOfHex sb.hash < ProofOfWork.get_target_from_bits block.bits ∧
      sb.hash = ProofOfWork.calculate_hash sb.block ∧
      ∃ k : Nat, sb.block = { block with nonce := block.nonce + k } := by
    intro fuel chain block sb chain' h
    simp only [ProofOfWork.mine] at h
    cases hloop : ProofOfWork.mineLoop (ProofOfWork.get_target_from_bits block.bits) fuel block with
    | none => rw [hloop] at h; exact absurd h (by simp)
    | some sb' =>
        rw [hloop] at h
        simp only [Option.map_some', Option.some.injEq, Prod.mk.injEq] at h
        obtain ⟨rfl, rfl⟩ : sb' = sb ∧ chain' = chain ++ [sb'] := ⟨h.1, h.2.symm⟩
        obtain ⟨h1, h2, k, hk⟩ := mineLoop_sound _ fuel block sb' hloop
        exact ⟨rfl, h1, h2, k, hk⟩
  refine ⟨hmine, ?_⟩
  intro chain hreach
  induction hreach with
  | nil => intro sb h; exact absurd h (by simp)
  | step fuel hprev hstep ih =>
      rename_i chain0 block sb0 chain1
      intro sb hmem
      obtain ⟨hc, h1, h2, k, hk⟩ := hmine _ _ _ _ _ hstep
      subst hc
      rcases List.mem_append.mp hmem with hin | hin
      · exact ih sb hin
      · have : sb = sb0 := by simpa using hin
        subst this
        have hbits : sb.block.bits = block.bits := by rw [hk]
        exact ⟨by rw [hbits]; exact h1, h2⟩

set_option maxHeartbeats 1000000 in
/-- C4 witness: a concrete low-difficulty block mines in one step; the
theorem applied there, plus the resulting one-block reachable chain. -/
theorem C4_mine_soundness_witness :
    ProofOfWork.mine 1 [] powCexBlock = some (powCexSealed, [powCexSealed]) ∧
    SHA256.intOfHex powCexSealed.hash <
      ProofOfWork.get_target_from_bits powCexBlock.bits ∧
    ProofOfWork.MinerReachable [powCexSealed] :=
  ⟨rfl, (C4_mine_soundness.1 1 [] powCexBlock powCexSealed [powCexSealed] rfl).2.1,
   @ProofOfWork.MinerReachable.step [] powCexBlock powCexSealed [powCexSealed] 1
     ProofOfWork.MinerReachable.nil rfl⟩

/-! ## Validator unfolding lemmas -/

/-- The result of `validate_tx` (when the lookup succeeds) is either the
accepted transaction or one of the five distinct error messages. -/
theorem validateResultShape (b1 b2 b3 b4 b5 : Bool) (tx : ScroogeCoin.Tx) :
    (if b1 && b2 && b3 && b4 && !b5 then (Sum.inl tx : ScroogeCoin.Tx ⊕ String)
     else Sum.inr (
       if !b1 then "hash is invalid!"
       else if !b2 then "signature is invalid!"
       else if !b3 then "the coins were not created before!"
       else if !b4 then "the amounts of input and output coins do not match!"
       else if b5 then "double spending!"
       else "")) = Sum.inl tx ∨
    (if b1 && b2 && b3 && b4 && !b5 then (Sum.inl tx : ScroogeCoin.Tx ⊕ String)
     else Sum.inr (
       if !b1 then "hash is invalid!"
       else if !b2 then "signature is invalid!"
       else if !b3 then "the coins were not created before!"
       else if !b4 then "the amounts of input and output coins do not match!"
       else if b5 then "double spending!"
       else "")) ∈ [(Sum.inr "hash is invalid!" : ScroogeCoin.Tx ⊕ String),
         Sum.inr "signature is invalid!", Sum.inr "the coins were not created before!",
         Sum.inr "the amounts of input and output coins do not match!",
         Sum.inr "double spending!"] := by
  cases b1 <;> cases b2 <;> cases b3 <;> cases b4 <;> cases b5 <;> simp

/-- `validate_tx` faults exactly when the `received_coins` lookup does. -/
theorem validate_tx_none_iff {PK : Type} (C : ScroogeCoin.Crypto PK)
    (chain : List ScroogeCoin.Block) (tx : ScroogeCoin.Tx) (pk : PK) :
    ScroogeCoin.validate_tx C chain tx pk = none ↔
      ScroogeCoin.lookupReceived chain tx = none := by
  unfold ScroogeCoin.validate_tx
  cases hlk : ScroogeCoin.lookupReceived chain tx <;> simp

/-- With a successful lookup, `validate_tx` returns the branch value of the
five computed checks. -/
theorem validate_tx_eq_of_lookup {PK : Type} (C : ScroogeCoin.Crypto PK)
    (chain : List ScroogeCoin.Block) (tx : ScroogeCoin.Tx) (pk : PK) (rc : Int)
    (hlk : ScroogeCoin.lookupReceived chain tx = some rc) :
    ScroogeCoin.validate_tx C chain tx pk = some (
      if (tx.hash == ScroogeCoin.create_hash
            (ScroogeCoin.txContentJson tx.sender tx.locations tx.receivers)) &&
         C.verify tx.signature tx.hash pk &&
         (ScroogeCoin.get_user_tx_positions chain tx.sender).contains tx.locations &&
         (tx.locations.amount == (tx.receivers.map (fun r => r.2)).sum) &&
         !(if tx.locations.amount ≤ rc - ScroogeCoin.spentCoins chain tx then false else true)
      then Sum.inl tx
      else Sum.inr (
        if !(tx.hash == ScroogeCoin.create_hash
              (ScroogeCoin.txContentJson tx.sender tx.locations tx.receivers)) then
          "hash is invalid!"
        else if !(C.verify tx.signature tx.hash pk) then "signature is invalid!"
        else if !((ScroogeCoin.get_user_tx_positions chain tx.sender).contains tx.locations) then
          "the coins were not created before!"
        else if !(tx.locations.amount == (tx.receivers.map (fun r => r.2)).sum) then
          "the amounts of input and output coins do not match!"
        else if (if tx.locations.amount ≤ rc - ScroogeCoin.spentCoins chain tx then false else true) then
          "double spending!"
        else "")) := by
  unfold ScroogeCoin.validate_tx
  rw [hlk]

/-- Acceptance extraction: an accepted transaction passed every check; in
particular the double-spend bound against the mined chain held. -/
theorem validate_tx_accepted {PK : Type} {C : ScroogeCoin.Crypto PK}
    {chain : List ScroogeCoin.Block} {tx t : ScroogeCoin.Tx} {pk : PK}
    (h : ScroogeCoin.validate_tx C chain tx pk = some (Sum.inl t)) :
    t = tx ∧
    tx.hash = ScroogeCoin.create_hash
      (ScroogeCoin.txContentJson tx.sender tx.locations tx.receivers) ∧
    C.verify tx.signature tx.hash pk = true ∧
    tx.locations ∈ ScroogeCoin.get_user_tx_positions chain tx.sender ∧
    tx.locations.amount = (tx.receivers.map (fun r => r.2)).sum ∧
    ∃ rc, ScroogeCoin.lookupReceived chain tx = some rc ∧
      tx.locations.amount ≤ rc - ScroogeCoin.spentCoins chain tx := by
  cases hlk : ScroogeCoin.lookupReceived chain tx with
  | none =>
      rw [(validate_tx_none_iff C chain tx pk).mpr hlk] at h
      exact absurd h (by simp)
  | some rc =>
      rw [validate_tx_eq_of_lookup C chain tx pk rc hlk] at h
      simp only [Option.some.injEq] at h
      by_cases hle : tx.locations.amount ≤ rc - ScroogeCoin.spentCoins chain tx
      · rw [if_pos hle] at h
        simp only [Bool.not_false, Bool.and_true] at h
        split at h
        · rename_i hcond
          simp only [Bool.and_eq_true] at hcond
          obtain ⟨⟨⟨h1, h2⟩, h3⟩, h4⟩ := hcond
          have ht : t = tx := by simpa using h.symm
          exact ⟨ht, beq_iff_eq.mp h1, h2, by simpa using h3, beq_iff_eq.mp h4,
            rc, rfl, hle⟩
        · exact absurd h (by simp)
      · rw [if_neg hle] at h
        simp only [Bool.not_true, Bool.and_false] at h
        exact absurd h (by simp)

/-! ## Claim C2: validate totality and rejection behaviour -/

/-- C2 counterexample: on an empty Chain Store, validating a transaction
that references block 0 raises an uncaught `IndexError` (modelled `none`)
instead of returning a rejection reason. -/
theorem C2_counterexample :
    ScroogeCoin.validate_tx trivialCrypto ([] : List ScroogeCoin.Block) cexTx1 () = none := by
  decide

/-- C2 (amended): *when the referenced block, transaction and receiver
entry exist* (the `received_coins` lookup succeeds), `validate_tx`
evaluates all five checks and returns the accepted transaction or one of
the five distinct rejection reasons — never a fault; and a rejected
`add_tx` leaves the ledger state (chain and pending set) unchanged.  When
the referenced location is absent the lookup line faults instead. -/
theorem C2_validate_defined {PK : Type} (C : ScroogeCoin.Crypto PK)
    (s : ScroogeCoin.Scrooge) (tx : ScroogeCoin.Tx) (pk : PK) (rc : Int)
    (hrc : ScroogeCoin.lookupReceived s.chain tx = some rc) :
    (∃ r, ScroogeCoin.validate_tx C s.chain tx pk = some r ∧
      (r = Sum.inl tx ∨ r ∈ [(Sum.inr "hash is invalid!" : ScroogeCoin.Tx ⊕ String),
        Sum.inr "signature is invalid!", Sum.inr "the coins were not created before!",
        Sum.inr "the amounts of input and output coins do not match!",
        Sum.inr "double spending!"])) ∧
    (∀ ok s', ScroogeCoin.add_tx C s tx pk = some (ok, s') → ok = false → s' = s) := by
  constructor
  · exact ⟨_, validate_tx_eq_of_lookup C s.chain tx pk rc hrc,
      validateResultShape _ _ _ _ _ tx⟩
  · intro ok s' hadd hok
    unfold ScroogeCoin.add_tx at hadd
    cases hv : ScroogeCoin.validate_tx C s.chain tx pk with
    | none =>
        rw [hv] at hadd
        exact absurd hadd (by simp)
    | some r =>
        rw [hv] at hadd
        simp only [Option.map_some', Option.some.injEq] at hadd
        cases r with
        | inl t =>
            dsimp only at hadd
            by_cases he : (tx == t) = true
            · rw [if_pos he] at hadd
              rw [Prod.mk.injEq] at hadd
              subst hok
              exact absurd hadd.1 (by simp)
            · rw [if_neg he] at hadd
              rw [Prod.mk.injEq] at hadd
              exact hadd.2.symm
        | inr msg =>
            dsimp only at hadd
            rw [Prod.mk.injEq] at hadd
            exact hadd.2.symm

/-- C2 witness: a conservation-violating spend against the one-block chain
has a defined lookup, and the amended theorem applies there. -/
theorem C2_validate_defined_witness :
    ScroogeCoin.lookupReceived cexS2.chain cexTxBadAmount = some 10 ∧
    (∃ r, ScroogeCoin.validate_tx trivialCrypto cexS2.chain cexTxBadAmount () = some r ∧
      (r = Sum.inl cexTxBadAmount ∨
        r ∈ [(Sum.inr "hash is invalid!" : ScroogeCoin.Tx ⊕ String),
        Sum.inr "signature is invalid!", Sum.inr "the coins were not created before!",
        Sum.inr "the amounts of input and output coins do not match!",
        Sum.inr "double spending!"])) :=
  ⟨by decide,
   (C2_validate_defined trivialCrypto cexS2 cexTxBadAmount () 10 (by decide)).1⟩

/-! ## Claim C3: the NoDoubleSpend check -/

theorem foldl_if_add_eq_sum {α : Type} (p : α → Bool) (f : α → Int) :
    ∀ (l : List α) (acc : Int),
      l.foldl (fun a t => if p t then a + f t else a) acc =
        acc + ((l.filter p).map f).sum := by
  intro l
  induction l with
  | nil => intro acc; simp
  | cons hd tl ih =>
      intro acc
      by_cases hp : p hd = true
      · simp only [List.foldl_cons, List.filter_cons, hp, if_pos, ih, List.map_cons,
          List.sum_cons]
        omega
      · have hp' : p hd = false := by simpa using hp
        simp [hp', ih]

theorem foldl_congr_add {β : Type} (step : Int → β → Int) (g : β → Int)
    (hstep : ∀ a b, step a b = a + g b) :
    ∀ (l : List β) (acc : Int), l.foldl step acc = acc + (l.map g).sum := by
  intro l
  induction l with
  | nil => intro acc; simp
  | cons hd tl ih =>
      intro acc
      simp only [List.foldl_cons, hstep, ih, List.map_cons, List.sum_cons]
      omega

/-- The double-spend loop of `validate_tx` computes exactly the spec's
"sum over the blocks strictly after the referenced block". -/
theorem spentCoins_eq_spentAfter (chain : List ScroogeCoin.Block) (tx : ScroogeCoin.Tx)
    (hb : 0 ≤ tx.locations.block) :
    ScroogeCoin.spentCoins chain tx =
      Spec.spentAfter chain tx.sender tx.locations.block tx.locations.tx := by
  unfold ScroogeCoin.spentCoins Spec.spentAfter
  rw [show Py.pySliceFrom chain (tx.locations.block + 1) =
      chain.drop (tx.locations.block + 1).toNat by
    unfold Py.pySliceFrom
    rw [if_pos (by omega)]]
  rw [foldl_congr_add _
    (fun block => Spec.blockMatch block tx.sender tx.locations.block tx.locations.tx)
    (fun a b => foldl_if_add_eq_sum _ _ _ _)]
  simp

theorem mem_txFundedLocations {bi ti : Int} {a : String} {tx : ScroogeCoin.Tx}
    {l : ScroogeCoin.Location} :
    l ∈ ScroogeCoin.txFundedLocations bi ti a tx →
    ∃ v, (a, v) ∈ tx.receivers ∧ l = ⟨bi, ti, v⟩ := by
  intro h
  unfold ScroogeCoin.txFundedLocations at h
  obtain ⟨entry, hmem, hf⟩ := List.mem_filterMap.mp h
  by_cases he : (a == entry.1) = true
  · rw [if_pos he] at hf
    obtain rfl := (Option.some.injEq _ _).mp hf
    refine ⟨entry.2, ?_, rfl⟩
    have ha : a = entry.1 := beq_iff_eq.mp he
    rw [ha]
    simpa using hmem
  · rw [if_neg he] at hf
    exact absurd hf (by simp)

/-- Every funded location returned by `get_user_tx_positions` points at an
actual receiving entry: its `block` is the stored block index, its `tx`
the (nonnegative) enumeration position, its `amount` a receivers value. -/
theorem mem_get_user_tx_positions {chain : List ScroogeCoin.Block} {a : String}
    {l : ScroogeCoin.Location} :
    l ∈ ScroogeCoin.get_user_tx_positions chain a →
    ∃ block ∈ chain, ∃ ti : Nat, ∃ tr, block.transactions.get? ti = some tr ∧
      l.block = block.index ∧ l.tx = (ti : Int) ∧
      ∃ v, (a, v) ∈ tr.receivers ∧ l.amount = v := by
  intro h
  unfold ScroogeCoin.get_user_tx_positions at h
  obtain ⟨inner, hinner, hl⟩ := List.mem_flatten.mp h
  obtain ⟨block, hblock, rfl⟩ := List.mem_map.mp hinner
  obtain ⟨inner2, hinner2, hl2⟩ := List.mem_flatten.mp hl
  obtain ⟨⟨ti, tr⟩, hti, rfl⟩ := List.mem_map.mp hinner2
  have hget : block.transactions.get? ti = some tr := by
    simpa using List.mem_enum_iff_get?.mp hti
  obtain ⟨v, hv, rfl⟩ := mem_txFundedLocations hl2
  exact ⟨block, hblock, ti, tr, hget, rfl, rfl, v, hv, rfl⟩

/-- For nonnegative locations, the code's `received_coins` lookup is the
spec's `receivedAt`. -/
theorem lookupReceived_eq_receivedAt (chain : List ScroogeCoin.Block)
    (tx : ScroogeCoin.Tx) (hb : 0 ≤ tx.locations.block) (ht : 0 ≤ tx.locations.tx) :
    ScroogeCoin.lookupReceived chain tx =
      Spec.receivedAt chain tx.locations.block.toNat tx.locations.tx.toNat tx.sender := by
  unfold ScroogeCoin.lookupReceived Spec.receivedAt
  rw [show Py.pyIndex chain tx.locations.block = chain.get? tx.locations.block.toNat by
    unfold Py.pyIndex
    rw [if_pos hb]]
  cases chain.get? tx.locations.block.toNat with
  | none => rfl
  | some bl =>
      show (Py.pyIndex bl.transactions tx.locations.tx).bind
          (fun t => Py.dictGet t.receivers tx.sender) =
        (bl.transactions.get? tx.locations.tx.toNat).bind
          (fun tr => Py.dictGet tr.receivers tx.sender)
      rw [show Py.pyIndex bl.transactions tx.locations.tx =
          bl.transactions.get? tx.locations.tx.toNat by
        unfold Py.pyIndex
        rw [if_pos ht]]

/-- C3 counterexample: on a chain with a *forward*-referencing same-sender
spend of position `(1, 0)` sitting in block 0, a new spend of `(1, 0)` is
accepted although its amount exceeds the received amount minus the sum
over all other same-sender transactions anywhere in the Chain Store
referencing that position. -/
theorem C3_counterexample :
    ScroogeCoin.validate_tx trivialCrypto c3Chain c3Tx () = some (Sum.inl c3Tx) ∧
    Spec.receivedAt c3Chain 1 0 "alice" = some 10 ∧
    Spec.spentAnywhereOthers c3Chain c3Tx = 10 ∧
    c3Tx.locations.amount = 10 ∧ ¬ ((10 : Int) ≤ 10 - 10) :=
  ⟨by decide, by decide, by decide, by decide, by decide⟩

/-- C3 (amended): letting `R` be the amount received by `tx.sender` at
`(tx.locations.block, tx.locations.tx)` and `S` the sum of
`locations.amount` over transactions from the same sender *in blocks
strictly after `tx.locations.block`* referencing that identical position,
`validate_tx` accepts `tx` (with a nonnegative block reference) only if
`tx.locations.amount ≤ R - S`. -/
theorem C3_accept_bound {PK : Type} (C : ScroogeCoin.Crypto PK)
    (chain : List ScroogeCoin.Block) (tx : ScroogeCoin.Tx) (pk : PK)
    (hb : 0 ≤ tx.locations.block)
    (hacc : ScroogeCoin.validate_tx C chain tx pk = some (Sum.inl tx)) :
    ∃ R, Spec.receivedAt chain tx.locations.block.toNat tx.locations.tx.toNat
        tx.sender = some R ∧
      tx.locations.amount ≤
        R - Spec.spentAfter chain tx.sender tx.locations.block tx.locations.tx := by
  obtain ⟨-, -, -, hfun, -, rc, hlk, hle⟩ := validate_tx_accepted hacc
  have ht : 0 ≤ tx.locations.tx := by
    obtain ⟨block, -, ti, tr, -, -, htx, -⟩ := mem_get_user_tx_positions hfun
    omega
  refine ⟨rc, ?_, ?_⟩
  · rw [← lookupReceived_eq_receivedAt chain tx hb ht]
    exact hlk
  · rw [← spentCoins_eq_spentAfter chain tx hb]
    exact hle

/-- C3 witness: the amended bound applied to alice's accepted spend of
`(0, 0)` on the one-block chain. -/
theorem C3_accept_bound_witness :
    ∃ R, Spec.receivedAt cexS2.chain 0 0 "alice" = some R ∧
      cexTx1.locations.amount ≤ R - Spec.spentAfter cexS2.chain "alice" 0 0 :=
  C3_accept_bound trivialCrypto cexS2.chain cexTx1 () (by decide) (by decide)

/-- C8 witness: the previous-hash clauses discharged at concrete states —
the sentinel on the empty chain, the tip hash on the one-block chain. -/
theorem C8_ledger_mine_witness :
    (ScroogeCoin.mine trivialCrypto cexS0).1.previous_hash =
      ScroogeCoin.create_hash (Json.num (-1)) ∧
    (ScroogeCoin.mine trivialCrypto cexS2).1.previous_hash =
      (ScroogeCoin.mine trivialCrypto cexS1).1.hash :=
  ⟨(C8_ledger_mine trivialCrypto cexS0).2.2.2.1 rfl,
   (C8_ledger_mine trivialCrypto cexS2).2.2.2.2.1 (ScroogeCoin.mine trivialCrypto cexS1).1 rfl⟩

/-! ## Claim C9: balance projection -/

theorem txFundedLocations_amounts (bi ti : Int) (a : String) (tx : ScroogeCoin.Tx) :
    ((ScroogeCoin.txFundedLocations bi ti a tx).map (fun p => p.amount)).sum =
      ((tx.receivers.filter (fun r => a == r.1)).map (fun r => r.2)).sum := by
  obtain ⟨s, l, rs, h, sig⟩ := tx
  unfold ScroogeCoin.txFundedLocations
  dsimp only
  induction rs with
  | nil => rfl
  | cons hd tl ih =>
      rw [List.filterMap_cons, List.filter_cons]
      by_cases hp : (a == hd.1) = true
      · rw [if_pos hp, if_pos hp]
        dsimp only
        simp only [List.map_cons, List.sum_cons, ih]
      · rw [if_neg hp, if_neg hp]
        dsimp only
        exact ih

theorem blockFunded_amounts (bidx : Int) (a : String) :
    ∀ (txs : List ScroogeCoin.Tx) (n : Nat),
      (((txs.enumFrom n).map
          (fun it => ScroogeCoin.txFundedLocations bidx (it.1 : Int) a it.2)).flatten.map
        (fun p => p.amount)).sum =
      (txs.map (fun tr =>
        ((tr.receivers.filter (fun r => a == r.1)).map (fun r => r.2)).sum)).sum := by
  intro txs
  induction txs with
  | nil => intro n; rfl
  | cons hd tl ih =>
      intro n
      simp only [List.enumFrom_cons, List.map_cons, List.flatten_cons, List.map_append,
        List.sum_append, List.sum_cons]
      rw [txFundedLocations_amounts, ih]

theorem blockFunded_amounts_enum (bidx : Int) (a : String) (txs : List ScroogeCoin.Tx) :
    ((txs.enum.map
        (fun it => ScroogeCoin.txFundedLocations bidx (it.1 : Int) a it.2)).flatten.map
      (fun p => p.amount)).sum =
    (txs.map (fun tr =>
      ((tr.receivers.filter (fun r => a == r.1)).map (fun r => r.2)).sum)).sum :=
  blockFunded_amounts bidx a txs 0

/-- The received side of `show_user_balance` is the spec's received sum. -/
theorem balance_in_eq (chain : List ScroogeCoin.Block) (a : String) :
    ((ScroogeCoin.get_user_tx_positions chain a).map (fun p => p.amount)).sum =
      Spec.receivedSum chain a := by
  unfold ScroogeCoin.get_user_tx_positions Spec.receivedSum
  induction chain with
  | nil => rfl
  | cons hd tl ih =>
      simp only [List.map_cons, List.flatten_cons, List.map_append, List.sum_append,
        List.sum_cons]
      rw [blockFunded_amounts_enum, ih]

theorem claimed_block_eq (a : String) : ∀ txs : List ScroogeCoin.Tx,
    ((txs.filterMap (fun old_tx =>
        if old_tx.sender == a then some old_tx.locations else none)).map
      (fun p => p.amount)).sum =
    ((txs.filter (fun tr => tr.sender == a)).map (fun tr => tr.locations.amount)).sum := by
  intro txs
  induction txs with
  | nil => rfl
  | cons hd tl ih =>
      rw [List.filterMap_cons, List.filter_cons]
      by_cases hp : (hd.sender == a) = true
      · rw [if_pos hp, if_pos hp]
        dsimp only
        simp only [List.map_cons, List.sum_cons, ih]
      · rw [if_neg hp, if_neg hp]
        dsimp only
        exact ih

/-- The claimed side of `show_user_balance` is the spec's claimed sum with
minted sentinels included. -/
theorem balance_out_eq (chain : List ScroogeCoin.Block) (a : String) :
    (((chain.map (fun block => block.transactions.filterMap (fun old_tx =>
        if old_tx.sender == a then some old_tx.locations else none))).flatten).map
      (fun p => p.amount)).sum = Spec.claimedSum chain a := by
  unfold Spec.claimedSum
  induction chain with
  | nil => rfl
  | cons hd tl ih =>
      simp only [List.map_cons, List.flatten_cons, List.map_append, List.sum_append,
        List.sum_cons]
      rw [claimed_block_eq, ih]

/-- Ledger states built by `create_coins {alice: 10}; mine()` are
reachable. -/
theorem cexS2_reachable : ScroogeCoin.Reachable trivialCrypto cexS2 :=
  ScroogeCoin.Reachable.step_mine
    (ScroogeCoin.Reachable.step_create [("alice", 10)] (by decide)
      (ScroogeCoin.Reachable.start "scrooge"))

/-- C9 counterexample: on a reachable chain holding one minted transaction,
the authority's printed balance is 1, while the claim's projection (minted
sentinels contributing nothing to the claimed side) gives 0: each minted
transaction contributes its sentinel amount `-1` to the claimed side. -/
theorem C9_counterexample :
    ScroogeCoin.Reachable trivialCrypto cexS2 ∧
    ScroogeCoin.show_user_balance cexS2.chain "scrooge" = 1 ∧
    Spec.receivedSum cexS2.chain "scrooge" = 0 ∧
    Spec.claimedSumNonMint cexS2.chain "scrooge" = 0 ∧
    (1 : Int) ≠ 0 - 0 :=
  ⟨cexS2_reachable, by decide, by decide, by decide, by decide⟩

/-- C9 (amended): for every Chain Store and address, the balance computed
by `show_user_balance` equals the sum of amounts received by the address
across committed transactions minus the sum of `locations.amount` over
*all* committed transactions sent by the address — minted transactions
included, each contributing its sentinel amount `-1` (thereby raising the
authority's printed balance by one per mint). -/
theorem C9_balance_projection (chain : List ScroogeCoin.Block) (address : String) :
    ScroogeCoin.show_user_balance chain address =
      Spec.receivedSum chain address - Spec.claimedSum chain address := by
  simp only [ScroogeCoin.show_user_balance]
  rw [balance_in_eq, balance_out_eq]

/-! ## Claim C1: the double-spend bound over reachable ledgers -/

/-- Case analysis of a non-faulting `add_tx`: either the transaction was
accepted and appended to the pending list, or the state is unchanged. -/
theorem add_tx_cases {PK : Type} {C : ScroogeCoin.Crypto PK} {s : ScroogeCoin.Scrooge}
    {tx : ScroogeCoin.Tx} {pk : PK} {ok : Bool} {s' : ScroogeCoin.Scrooge}
    (h : ScroogeCoin.add_tx C s tx pk = some (ok, s')) :
    (ok = true ∧
      s' = { s with current_transactions := s.current_transactions ++ [tx] } ∧
      ScroogeCoin.validate_tx C s.chain tx pk = some (Sum.inl tx)) ∨
    (ok = false ∧ s' = s) := by
  unfold ScroogeCoin.add_tx at h
  cases hv : ScroogeCoin.validate_tx C s.chain tx pk with
  | none =>
      rw [hv] at h
      exact absurd h (by simp)
  | some r =>
      rw [hv] at h
      simp only [Option.map_some', Option.some.injEq] at h
      cases r with
      | inl u =>
          dsimp only at h
          by_cases he : (tx == u) = true
          · rw [if_pos he] at h
            rw [Prod.mk.injEq] at h
            obtain rfl : u = tx := (beq_iff_eq.mp he).symm
            exact Or.inl ⟨h.1.symm, h.2.symm, rfl⟩
          · rw [if_neg he] at h
            rw [Prod.mk.injEq] at h
            exact Or.inr ⟨h.1.symm, h.2.symm⟩
      | inr msg =>
          dsimp only at h
          rw [Prod.mk.injEq] at h
          exact Or.inr ⟨h.1.symm, h.2.symm⟩

/-- Every reachable ledger state satisfies the chain and pending-set
invariants: indices are positional and every stored transaction is minted
or was accepted by `validate_tx` against the chain it was admitted on. -/
theorem reachable_stateOK {PK : Type} {C : ScroogeCoin.Crypto PK}
    {s : ScroogeCoin.Scrooge} (h : ScroogeCoin.Reachable C s) :
    ScroogeCoin.StateOK C s := by
  induction h with
  | start address =>
      exact ⟨⟨fun i block h => by simp at h, fun i block h => by simp at h,
        fun block h => by simp at h⟩,
        fun tx h => by simp at h, fun tx h => by simp at h⟩
  | step_create receivers hnd hr ih =>
      refine ⟨?_, ?_, ?_⟩
      · exact ih.chain_ok
      · intro tx htx
        rcases List.mem_append.mp htx with hold | hnew
        · exact ih.pending_ok tx hold
        · obtain rfl := List.mem_singleton.mp hnew
          exact Or.inl rfl
      · intro tx htx
        rcases List.mem_append.mp htx with hold | hnew
        · exact ih.pending_nodup tx hold
        · obtain rfl := List.mem_singleton.mp hnew
          exact hnd
  | @step_mine s1 hr ih =>
      have hchain : (ScroogeCoin.mine C s1).2.chain =
          s1.chain ++ [(ScroogeCoin.mine C s1).1] := rfl
      have hcur : (ScroogeCoin.mine C s1).2.current_transactions = [] := rfl
      have hidx : (ScroogeCoin.mine C s1).1.index = (s1.chain.length : Int) := rfl
      have htxs : (ScroogeCoin.mine C s1).1.transactions = s1.current_transactions := rfl
      refine ⟨⟨?_, ?_, ?_⟩, ?_, ?_⟩
      · intro i block' hget
        rw [hchain] at hget
        rcases Nat.lt_or_ge i s1.chain.length with hi | hi
        · rw [List.get?_append hi] at hget
          exact ih.chain_ok.index_eq i block' hget
        · rw [List.get?_append_right hi] at hget
          cases h0 : i - s1.chain.length with
          | zero =>
              obtain rfl : i = s1.chain.length := by omega
              rw [h0] at hget
              obtain rfl := Option.some.inj hget
              exact hidx
          | succ n =>
              rw [h0] at hget
              exact absurd hget (by simp)
      · intro i block' hget tx htx
        rw [hchain] at hget
        rw [hchain]
        rcases Nat.lt_or_ge i s1.chain.length with hi | hi
        · rw [List.get?_append hi] at hget
          rw [List.take_append_of_le_length (le_of_lt hi)]
          exact ih.chain_ok.tx_ok i block' hget tx htx
        · rw [List.get?_append_right hi] at hget
          cases h0 : i - s1.chain.length with
          | zero =>
              obtain rfl : i = s1.chain.length := by omega
              rw [h0] at hget
              obtain rfl := Option.some.inj hget
              rw [List.take_left]
              rw [htxs] at htx
              exact ih.pending_ok tx htx
          | succ n =>
              rw [h0] at hget
              exact absurd hget (by simp)
      · intro block' hmem tx htx
        rw [hchain] at hmem
        rcases List.mem_append.mp hmem with hold | hnew
        · exact ih.chain_ok.keys_nodup block' hold tx htx
        · obtain rfl := List.mem_singleton.mp hnew
          rw [htxs] at htx
          exact ih.pending_nodup tx htx
      · intro tx htx
        rw [hcur] at htx
        exact absurd htx (List.not_mem_nil tx)
      · intro tx htx
        rw [hcur] at htx
        exact absurd htx (List.not_mem_nil tx)
  | step_add tx pk res hnd hadd hr ih =>
      obtain ⟨ok, s'⟩ := res
      rcases add_tx_cases hadd with ⟨-, rfl, hv⟩ | ⟨-, rfl⟩
      · refine ⟨?_, ?_, ?_⟩
        · exact ih.chain_ok
        · intro tp htp
          rcases List.mem_append.mp htp with hold | hnew
          · exact ih.pending_ok tp hold
          · obtain rfl := List.mem_singleton.mp hnew
            exact Or.inr ⟨pk, hv⟩
        · intro tp htp
          rcases List.mem_append.mp htp with hold | hnew
          · exact ih.pending_nodup tp hold
          · obtain rfl := List.mem_singleton.mp hnew
            exact hnd
      · exact ih

/-- Dropping the prefix restriction from a lookup before the cut: the
received amount at a position before block `k` is the same on the prefix
and on the whole chain. -/
theorem receivedAt_take {chain : List ScroogeCoin.Block} {b k : Nat} (h : b < k)
    (t : Nat) (a : String) :
    Spec.receivedAt (chain.take k) b t a = Spec.receivedAt chain b t a := by
  unfold Spec.receivedAt
  rw [List.get?_take h]

/-- A defined received amount on a nonnegative-receivers chain is
nonnegative: it is literally one of the on-chain receiver values. -/
theorem receivedAt_nonneg {chain : List ScroogeCoin.Block}
    (hnn : Spec.NonNegReceivers chain) {b t : Nat} {a : String} {R : Int}
    (hR : Spec.receivedAt chain b t a = some R) : 0 ≤ R := by
  unfold Spec.receivedAt at hR
  cases hbl : chain.get? b with
  | none =>
      rw [hbl] at hR
      exact absurd hR (by simp)
  | some block =>
      rw [hbl] at hR
      simp only [Option.some_bind] at hR
      cases htr : block.transactions.get? t with
      | none =>
          rw [htr] at hR
          exact absurd hR (by simp)
      | some tr =>
          rw [htr] at hR
          simp only [Option.some_bind] at hR
          unfold Py.dictGet at hR
          cases hf : tr.receivers.find? (fun p => p.1 == a) with
          | none =>
              rw [hf] at hR
              exact absurd hR (by simp)
          | some pr =>
              rw [hf] at hR
              simp only [Option.map_some', Option.some.injEq] at hR
              have hmem := List.mem_of_find?_eq_some hf
              have hnneg := hnn block (List.get?_mem hbl) tr (List.get?_mem htr) pr hmem
              omega

/-- What the funded-positions check pins down for a transaction accepted
against the prefix before block `k`: its location names an actual
receiving entry in a block strictly before `k`. -/
theorem accepted_position {PK : Type} {C : ScroogeCoin.Crypto PK}
    {chain : List ScroogeCoin.Block} (hOK : ScroogeCoin.ChainOK C chain)
    {k : Nat} {tx : ScroogeCoin.Tx} {pk : PK}
    (hacc : ScroogeCoin.validate_tx C (chain.take k) tx pk = some (Sum.inl tx)) :
    ∃ bi ti : Nat, bi < k ∧ bi < chain.length ∧
      tx.locations.block = (bi : Int) ∧ tx.locations.tx = (ti : Int) ∧
      ∃ block tr, chain.get? bi = some block ∧ block.transactions.get? ti = some tr ∧
        (tx.sender, tx.locations.amount) ∈ tr.receivers := by
  obtain ⟨-, -, -, hfun, -, -, -, -⟩ := validate_tx_accepted hacc
  obtain ⟨block, hblock, ti, tr, hget, hbidx, hti, v, hv, hamt⟩ :=
    mem_get_user_tx_positions hfun
  obtain ⟨j, hj⟩ := List.mem_iff_get?.mp hblock
  have hjlt : j < (chain.take k).length := by
    by_contra hge
    rw [List.get?_eq_none.mpr (le_of_not_lt hge)] at hj
    exact absurd hj (by simp)
  have hlen := List.length_take k chain
  have hjk : j < k := by omega
  have hjchain : j < chain.length := by omega
  have hget2 : chain.get? j = some block := by
    rw [← List.get?_take hjk]
    exact hj
  have hidx := hOK.index_eq j block hget2
  refine ⟨j, ti, hjk, hjchain, ?_, hti, block, tr, hget2, hget, ?_⟩
  · rw [hbidx, hidx]
  · rw [hamt]
    exact hv

/-- Any transaction stored on an invariant-satisfying chain whose location
block is nonnegative claims a nonnegative amount. -/
theorem chain_tx_amount_nonneg {PK : Type} {C : ScroogeCoin.Crypto PK}
    {chain : List ScroogeCoin.Block} (hOK : ScroogeCoin.ChainOK C chain)
    (hnn : Spec.NonNegReceivers chain) {i : Nat} {block : ScroogeCoin.Block}
    (hb : chain.get? i = some block) {tr : ScroogeCoin.Tx}
    (htr : tr ∈ block.transactions) (hloc : 0 ≤ tr.locations.block) :
    0 ≤ tr.locations.amount := by
  rcases hOK.tx_ok i block hb tr htr with hmint | ⟨pk, hacc⟩
  · unfold ScroogeCoin.IsMinted at hmint
    rw [hmint] at hloc
    exact absurd hloc (by decide)
  · obtain ⟨bi, ti, -, -, -, -, block2, tr2, hbl2, htr2, hmem⟩ :=
      accepted_position hOK hacc
    exact hnn block2 (List.get?_mem hbl2) tr2 (List.get?_mem htr2)
      (tr.sender, tr.locations.amount) hmem

/-- Each per-block matching sum of the double-spend scan is nonnegative. -/
theorem blockMatch_nonneg {PK : Type} {C : ScroogeCoin.Crypto PK}
    {chain : List ScroogeCoin.Block} (hOK : ScroogeCoin.ChainOK C chain)
    (hnn : Spec.NonNegReceivers chain) {i : Nat} {block : ScroogeCoin.Block}
    (hb : chain.get? i = some block) {a : String} {b t : Int} (hbpos : 0 ≤ b) :
    0 ≤ Spec.blockMatch block a b t := by
  unfold Spec.blockMatch
  apply List.sum_nonneg
  intro x hx
  obtain ⟨tr, htr, rfl⟩ := List.mem_map.mp hx
  obtain ⟨hmem, hpred⟩ := List.mem_filter.mp htr
  simp only [Bool.and_eq_true, beq_iff_eq] at hpred
  exact chain_tx_amount_nonneg hOK hnn hb hmem (by rw [hpred.1.2]; exact hbpos)

/-- A single matching transaction of a block claims at most the block's
whole matching sum. -/
theorem amount_le_blockMatch {PK : Type} {C : ScroogeCoin.Crypto PK}
    {chain : List ScroogeCoin.Block} (hOK : ScroogeCoin.ChainOK C chain)
    (hnn : Spec.NonNegReceivers chain) {a : String} {b t : Int} (hbpos : 0 ≤ b)
    {p : Nat × Nat} {tx : ScroogeCoin.Tx}
    (hm : Spec.MatchingAt chain a b t p tx)
    {block : ScroogeCoin.Block} (hb : chain.get? p.1 = some block) :
    tx.locations.amount ≤ Spec.blockMatch block a b t := by
  obtain ⟨block', hb', hget, hsend, hbeq, hteq⟩ := hm
  rw [hb] at hb'
  obtain rfl := Option.some.inj hb'
  unfold Spec.blockMatch
  apply List.single_le_sum
  · intro x hx
    obtain ⟨tr, htr, rfl⟩ := List.mem_map.mp hx
    obtain ⟨hmem, hpred⟩ := List.mem_filter.mp htr
    simp only [Bool.and_eq_true, beq_iff_eq] at hpred
    exact chain_tx_amount_nonneg hOK hnn hb hmem (by rw [hpred.1.2]; exact hbpos)
  · exact List.mem_map.mpr ⟨tx, List.mem_filter.mpr ⟨List.get?_mem hget,
      by simp [hsend, hbeq, hteq]⟩, rfl⟩

/-- Every windowed matching sum over an invariant chain is nonnegative. -/
theorem segmentSpent_nonneg {PK : Type} {C : ScroogeCoin.Crypto PK}
    {chain : List ScroogeCoin.Block} (hOK : ScroogeCoin.ChainOK C chain)
    (hnn : Spec.NonNegReceivers chain) (a : String) (b : Int) (hbpos : 0 ≤ b)
    (t : Int) (lo k : Nat) :
    0 ≤ Spec.segmentSpent chain a b t lo k := by
  unfold Spec.segmentSpent
  apply List.sum_nonneg
  intro x hx
  obtain ⟨block, hbl, rfl⟩ := List.mem_map.mp hx
  obtain ⟨i, hi⟩ := List.mem_iff_get?.mp
    (List.mem_of_mem_drop (List.mem_of_mem_take hbl))
  exact blockMatch_nonneg hOK hnn hi hbpos

/-- Splitting a window of the matching sum at an interior block. -/
theorem segmentSpent_split (chain : List ScroogeCoin.Block) (a : String)
    (b t : Int) {lo m k : Nat} (h1 : lo ≤ m) (h2 : m < k)
    {blockm : ScroogeCoin.Block} (hbm : chain.get? m = some blockm) :
    Spec.segmentSpent chain a b t lo k =
      Spec.segmentSpent chain a b t lo m + Spec.blockMatch blockm a b t +
        Spec.segmentSpent chain a b t (m + 1) k := by
  have h3 : m < chain.length := by
    by_contra hge
    rw [List.get?_eq_none.mpr (le_of_not_lt hge)] at hbm
    exact absurd hbm (by simp)
  have heq : chain[m] = blockm := by
    rw [List.get?_eq_get h3] at hbm
    exact Option.some.inj hbm
  unfold Spec.segmentSpent
  rw [show k - lo = (m - lo) + (k - m) by omega]
  rw [List.take_add]
  rw [List.drop_drop]
  rw [show lo + (m - lo) = m by omega]
  rw [List.drop_eq_getElem_cons h3]
  rw [show k - m = (k - (m + 1)) + 1 by omega]
  rw [List.take_succ_cons]
  rw [heq]
  rw [List.map_append, List.sum_append, List.map_cons, List.sum_cons]
  omega

/-- The code's strictly-after scan over a prefix, as a window. -/
theorem spentAfter_take_eq (chain : List ScroogeCoin.Block) (a : String)
    (b : Nat) (t : Int) (k : Nat) :
    Spec.spentAfter (chain.take k) a (b : Int) t =
      Spec.segmentSpent chain a (b : Int) t (b + 1) k := by
  unfold Spec.spentAfter Spec.segmentSpent
  rw [show ((b : Int) + 1).toNat = b + 1 by omega]
  rw [List.drop_take]

/-- A family of same-coin spends sitting at strictly increasing block
positions inside a window is dominated by the window's matching sum. -/
theorem selection_le_segment {PK : Type} {C : ScroogeCoin.Crypto PK}
    {chain : List ScroogeCoin.Block} (hOK : ScroogeCoin.ChainOK C chain)
    (hnn : Spec.NonNegReceivers chain) (a : String) (b : Nat) (t : Int) :
    ∀ (sel : List ((Nat × Nat) × ScroogeCoin.Tx)) (lo k : Nat),
      sel.Pairwise (fun x y => x.1.1 < y.1.1) →
      (∀ x ∈ sel, lo ≤ x.1.1 ∧ x.1.1 < k ∧
        Spec.MatchingAt chain a (b : Int) t x.1 x.2) →
      (sel.map (fun x => x.2.locations.amount)).sum ≤
        Spec.segmentSpent chain a (b : Int) t lo k := by
  intro sel
  induction sel with
  | nil =>
      intro lo k hpw hall
      simpa using segmentSpent_nonneg hOK hnn a (b : Int) (Int.natCast_nonneg b) t lo k
  | cons x rest ih =>
      intro lo k hpw hall
      obtain ⟨hpwx, hpwrest⟩ := List.pairwise_cons.mp hpw
      obtain ⟨hlo, hk, hmx⟩ := hall x (List.mem_cons_self x rest)
      obtain ⟨blockx, hblx, -, -, -, -⟩ := id hmx
      have hrest : (rest.map (fun x => x.2.locations.amount)).sum ≤
          Spec.segmentSpent chain a (b : Int) t (x.1.1 + 1) k :=
        ih (x.1.1 + 1) k hpwrest (fun y hy =>
          ⟨by have := hpwx y hy; omega,
           (hall y (List.mem_cons_of_mem x hy)).2.1,
           (hall y (List.mem_cons_of_mem x hy)).2.2⟩)
      have hx_le : x.2.locations.amount ≤ Spec.blockMatch blockx a (b : Int) t :=
        amount_le_blockMatch hOK hnn (Int.natCast_nonneg b) hmx hblx
      have hseg0 : 0 ≤ Spec.segmentSpent chain a (b : Int) t lo x.1.1 :=
        segmentSpent_nonneg hOK hnn a (b : Int) (Int.natCast_nonneg b) t lo x.1.1
      rw [List.map_cons, List.sum_cons,
        segmentSpent_split chain a (b : Int) t hlo hk hblx]
      omega

/-- The bound enforced by an accepted transaction, rephrased over the whole
chain: a transaction accepted on the prefix before block `k` spends at
most the received amount minus everything already claimed from the same
position inside the window. -/
theorem accepted_amount_le {PK : Type} {C : ScroogeCoin.Crypto PK}
    {chain : List ScroogeCoin.Block} (hOK : ScroogeCoin.ChainOK C chain)
    {k : Nat} {tx : ScroogeCoin.Tx} {pk : PK}
    (hacc : ScroogeCoin.validate_tx C (chain.take k) tx pk = some (Sum.inl tx))
    {b t : Nat} {R : Int}
    (hb : tx.locations.block = (b : Int)) (ht : tx.locations.tx = (t : Int))
    (hR : Spec.receivedAt chain b t tx.sender = some R) :
    tx.locations.amount ≤
      R - Spec.segmentSpent chain tx.sender (b : Int) (t : Int) (b + 1) k ∧
    b < k := by
  obtain ⟨-, -, -, -, -, rc, hlk, hle⟩ := validate_tx_accepted hacc
  obtain ⟨bi, ti, hbik, -, hbe, -, -⟩ := accepted_position hOK hacc
  have hbk : b < k := by omega
  have h0b : 0 ≤ tx.locations.block := by omega
  have h0t : 0 ≤ tx.locations.tx := by omega
  rw [lookupReceived_eq_receivedAt (chain.take k) tx h0b h0t] at hlk
  have hbn : tx.locations.block.toNat = b := by omega
  have htn : tx.locations.tx.toNat = t := by omega
  rw [hbn, htn, receivedAt_take hbk t tx.sender, hR] at hlk
  obtain rfl : R = rc := Option.some.inj hlk
  rw [spentCoins_eq_spentAfter (chain.take k) tx h0b, hb, ht,
    spentAfter_take_eq chain tx.sender b (t : Int) k] at hle
  exact ⟨hle, hbk⟩

/-- A non-minted on-chain spend of position `(b, t)` necessarily sits in a
block strictly after `b`. -/
theorem matching_block_gt {PK : Type} {C : ScroogeCoin.Crypto PK}
    {chain : List ScroogeCoin.Block} (hOK : ScroogeCoin.ChainOK C chain)
    {a : String} {b t : Nat} {p : Nat × Nat} {tx : ScroogeCoin.Tx}
    (hm : Spec.MatchingAt chain a (b : Int) (t : Int) p tx) :
    b < p.1 ∧ p.1 < chain.length := by
  obtain ⟨block, hbl, hget, hsend, hb, ht⟩ := hm
  have hplen : p.1 < chain.length := by
    by_contra hge
    rw [List.get?_eq_none.mpr (le_of_not_lt hge)] at hbl
    exact absurd hbl (by simp)
  refine ⟨?_, hplen⟩
  rcases hOK.tx_ok p.1 block hbl tx (List.get?_mem hget) with hmint | ⟨pk, hacc⟩
  · unfold ScroogeCoin.IsMinted at hmint
    rw [hmint] at hb
    dsimp only at hb
    omega
  · obtain ⟨bi, ti, hbik, -, hbe, -, -⟩ := accepted_position hOK hacc
    omega

/-- The per-transaction form of the double-spend bound for a mined
matching transaction. -/
theorem matching_amount_le {PK : Type} {C : ScroogeCoin.Crypto PK}
    {chain : List ScroogeCoin.Block} (hOK : ScroogeCoin.ChainOK C chain)
    {a : String} {b t : Nat} {R : Int}
    (hR : Spec.receivedAt chain b t a = some R)
    {p : Nat × Nat} {tx : ScroogeCoin.Tx}
    (hm : Spec.MatchingAt chain a (b : Int) (t : Int) p tx) :
    tx.locations.amount ≤
      R - Spec.segmentSpent chain a (b : Int) (t : Int) (b + 1) p.1 := by
  obtain ⟨block, hbl, hget, hsend, hb, ht⟩ := id hm
  rcases hOK.tx_ok p.1 block hbl tx (List.get?_mem hget) with hmint | ⟨pk, hacc⟩
  · unfold ScroogeCoin.IsMinted at hmint
    rw [hmint] at hb
    dsimp only at hb
    omega
  · have hR' : Spec.receivedAt chain b t tx.sender = some R := by
      rw [hsend]
      exact hR
    have h := (accepted_amount_le hOK hacc hb ht hR').1
    rw [hsend] at h
    exact h

set_option maxHeartbeats 2000000 in
/-- C1 counterexample: two distinct pending spends of the same coin
`(0, 0)` are both accepted by `add_tx` from a reachable state; their
amounts sum to 20 while alice received only 10 at that position.  The
double-spend check scans mined blocks only, never the pending set, so the
claim fails for sets containing two pending transactions. -/
theorem C1_counterexample :
    ScroogeCoin.add_tx trivialCrypto cexS2 cexTx1 () = some (true, cexS3) ∧
    ScroogeCoin.add_tx trivialCrypto cexS3 cexTx2 () = some (true, cexS4) ∧
    ScroogeCoin.Reachable trivialCrypto cexS4 ∧
    cexTx1 ∈ cexS4.current_transactions ∧ cexTx2 ∈ cexS4.current_transactions ∧
    cexTx1 ≠ cexTx2 ∧
    cexTx1.sender = "alice" ∧ cexTx2.sender = "alice" ∧
    cexTx1.locations.block = 0 ∧ cexTx2.locations.block = 0 ∧
    cexTx1.locations.tx = 0 ∧ cexTx2.locations.tx = 0 ∧
    Spec.receivedAt cexS4.chain 0 0 "alice" = some 10 ∧
    ¬ (cexTx1.locations.amount + cexTx2.locations.amount ≤ 10) := by
  have h1 : ScroogeCoin.add_tx trivialCrypto cexS2 cexTx1 () = some (true, cexS3) := rfl
  have h2 : ScroogeCoin.add_tx trivialCrypto cexS3 cexTx2 () = some (true, cexS4) := rfl
  have h3 : ScroogeCoin.Reachable trivialCrypto cexS3 :=
    @ScroogeCoin.Reachable.step_add Unit trivialCrypto cexS2 cexTx1 () (true, cexS3)
      (by decide) h1 cexS2_reachable
  have h4 : ScroogeCoin.Reachable trivialCrypto cexS4 :=
    @ScroogeCoin.Reachable.step_add Unit trivialCrypto cexS3 cexTx2 () (true, cexS4)
      (by decide) h2 h3
  exact ⟨h1, h2, h4, List.Mem.head _, List.Mem.tail _ (List.Mem.head _), by decide,
    rfl, rfl, rfl, rfl, rfl, rfl, by decide, by decide⟩

/-- C1 (amended): the double-spend bound holds for every family of
accepted transactions containing at most one still-pending member.  For
every reachable ledger state whose chain records only nonnegative receiver
amounts, and every coin position `(b, t)` at which `a` received `R`: any
family of mined transactions from sender `a` referencing `(b, t)` and
lying in pairwise distinct blocks has amount-sum at most `R`, and adding
one pending such transaction preserves the bound.  (With two pending
members the original claim fails, see the counterexample.) -/
theorem C1_double_spend_bound {PK : Type} (C : ScroogeCoin.Crypto PK)
    (s : ScroogeCoin.Scrooge) (hreach : ScroogeCoin.Reachable C s)
    (hnn : Spec.NonNegReceivers s.chain)
    (a : String) (b t : Nat) (R : Int)
    (hR : Spec.receivedAt s.chain b t a = some R)
    (sel : List ((Nat × Nat) × ScroogeCoin.Tx))
    (hsorted : sel.Pairwise (fun x y => x.1.1 < y.1.1))
    (hsel : ∀ x ∈ sel, Spec.MatchingAt s.chain a (b : Int) (t : Int) x.1 x.2) :
    (sel.map (fun x => x.2.locations.amount)).sum ≤ R ∧
    ∀ tp ∈ s.current_transactions, tp.sender = a →
      tp.locations.block = (b : Int) → tp.locations.tx = (t : Int) →
      (sel.map (fun x => x.2.locations.amount)).sum + tp.locations.amount ≤ R := by
  have hOK := (reachable_stateOK hreach).chain_ok
  have hpend := (reachable_stateOK hreach).pending_ok
  constructor
  · rcases List.eq_nil_or_concat' sel with rfl | ⟨init, xl, rfl⟩
    · simpa using receivedAt_nonneg hnn hR
    · obtain ⟨hpw_init, -, hcross⟩ := List.pairwise_append.mp hsorted
      have hxl_bound := matching_amount_le hOK hR (hsel xl (by simp))
      have hinit : (init.map (fun x => x.2.locations.amount)).sum ≤
          Spec.segmentSpent s.chain a (b : Int) (t : Int) (b + 1) xl.1.1 :=
        selection_le_segment hOK hnn a b (t : Int) init (b + 1) xl.1.1 hpw_init
          (fun y hy => ⟨by
              have := (matching_block_gt hOK (hsel y (List.mem_append_left _ hy))).1
              omega,
            hcross y hy xl (by simp),
            hsel y (List.mem_append_left _ hy)⟩)
      rw [List.map_append, List.sum_append]
      simp only [List.map_cons, List.map_nil, List.sum_cons, List.sum_nil]
      omega
  · intro tp htp hsend hbp htz
    rcases hpend tp htp with hmint | ⟨pk, hacc⟩
    · unfold ScroogeCoin.IsMinted at hmint
      rw [hmint] at hbp
      dsimp only at hbp
      omega
    · have hacc' : ScroogeCoin.validate_tx C (s.chain.take s.chain.length) tp pk
          = some (Sum.inl tp) := by
        rw [List.take_length]
        exact hacc
      have hR' : Spec.receivedAt s.chain b t tp.sender = some R := by
        rw [hsend]
        exact hR
      have htp_bound := (accepted_amount_le hOK hacc' hbp htz hR').1
      rw [hsend] at htp_bound
      have hsel_bound : (sel.map (fun x => x.2.locations.amount)).sum ≤
          Spec.segmentSpent s.chain a (b : Int) (t : Int) (b + 1) s.chain.length :=
        selection_le_segment hOK hnn a b (t : Int) sel (b + 1) s.chain.length hsorted
          (fun y hy => ⟨by
              have := (matching_block_gt hOK (hsel y hy)).1
              omega,
            (matching_block_gt hOK (hsel y hy)).2,
            hsel y hy⟩)
      omega

/-- C1 witness: the amended bound applied at the reachable one-block chain
funding alice with 10, the empty selection and the coin `(0, 0)`. -/
theorem C1_double_spend_bound_witness :
    (([] : List ((Nat × Nat) × ScroogeCoin.Tx)).map
        (fun x => x.2.locations.amount)).sum ≤ 10 ∧
    ∀ tp ∈ cexS2.current_transactions, tp.sender = "alice" →
      tp.locations.block = ((0 : Nat) : Int) → tp.locations.tx = ((0 : Nat) : Int) →
      (([] : List ((Nat × Nat) × ScroogeCoin.Tx)).map
          (fun x => x.2.locations.amount)).sum + tp.locations.amount ≤ 10 :=
  C1_double_spend_bound trivialCrypto cexS2 cexS2_reachable
    (by unfold Spec.NonNegReceivers; decide) "alice" 0 0 10
    (by decide) [] List.Pairwise.nil (by simp)
